import Mathlib

/-!
Shallow embedding of the points-to / alias set engine implemented in
`lib/PhasarLLVM/Pointer/LLVMPointsToSet.cpp` (class `psr::LLVMPointsToSet`).

Value handles (`const llvm::Value *`) are modelled as natural numbers.
Shared set handles (`std::shared_ptr<std::unordered_set<const llvm::Value *>>`)
are modelled as natural-number ids allocated from a counter `next`; two map
entries alias iff they carry the same id, mirroring shared-pointer identity.
The value-to-set map (`PointsToSets`) and the id-to-contents store are
association lists; `std::unordered_map::operator[]` assignment is an
add-or-overwrite (`setKV`) and `std::unordered_map::insert` is an
insert-if-absent (`insKV`), exactly as in the C++ semantics.
-/

namespace LLVMPointsTo

/-- Alias results, as in `llvm::AliasResult` / `psr::AliasResult`
(`NoAlias`, `MayAlias`, `PartialAlias`, `MustAlias`). -/
inductive AliasResult where
  | noAlias
  | mayAlias
  | partAlias
  | mustAlias
deriving DecidableEq

/-- An instruction, reduced to the shape `computeFunctionsPointsToSet`
inspects: a store (value operand, pointer operand), a call-like instruction
(called operand and its data operands), or any other instruction with its
operand list.  The instruction is itself a value; it is paired with its
value handle in `Func.insts`. -/
inductive Inst where
  | store (svo spo : Nat)
  | call (callee : Nat) (dataOps : List Nat)
  | other (ops : List Nat)
deriving DecidableEq

/-- A function as the engine sees it: its argument values, its instructions
in iteration order, and whether it is a declaration. -/
structure Func where
  args : List Nat
  insts : List (Nat × Inst)
  isDeclaration : Bool
deriving DecidableEq

/-- One user of a global object, as enumerated by `G->users()`:
`parent` is the enclosing function when the user is an instruction with a
parent basic block (`Inst->getParent()` / `Inst->getFunction()`), and
`asStore` carries the (value operand, pointer operand) pair when the user is
a store instruction. -/
structure UserEntry where
  id : Nat
  parent : Option Nat
  asStore : Option (Nat × Nat)
deriving DecidableEq

/-- The read-only IR view consumed by the engine: type and downcast
predicates, the module contents, user iteration for global objects,
`retrieveFunction`, and the per-function alias oracle (`llvm::AAResults`).
`asBitcastCEOp v` is `some rhs` when `v` is a `ConstantExpr` whose
`getAsInstruction` form is a `BitCastInst` with source operand `rhs`. -/
structure IRView where
  isPointerTy : Nat → Bool
  isFunc : Nat → Bool
  isGlobalVar : Nat → Bool
  isNullOrUndef : Nat → Bool
  asBitcastCEOp : Nat → Option Nat
  globals : List Nat
  funcs : List (Nat × Func)
  usersOf : Nat → List UserEntry
  retrieveFunc : Nat → Option Nat
  oracle : Nat → Nat → Nat → AliasResult

/-- Engine state: `map` is `PointsToSets` (value handle to set id),
`sets` stores each set id's contents, `next` is the allocator for fresh
set ids (fresh `make_shared` calls), and `analyzed` is `AnalyzedFunctions`. -/
structure PTSState where
  map : List (Nat × Nat)
  sets : List (Nat × List Nat)
  next : Nat
  analyzed : List Nat
deriving DecidableEq

/-- Association-list lookup; models `std::unordered_map::find`. -/
def alookup {α : Type} : List (Nat × α) → Nat → Option α
  | [], _ => none
  | (k, v) :: rest, k' => if k = k' then some v else alookup rest k'

/-- Add-or-overwrite a binding; models assignment through
`std::unordered_map::operator[]`. -/
def setKV {α : Type} : List (Nat × α) → Nat → α → List (Nat × α)
  | [], k, v => [(k, v)]
  | (k0, v0) :: rest, k, v =>
    if k0 = k then (k, v) :: rest else (k0, v0) :: setKV rest k v

/-- Insert a binding only if the key is absent; models
`std::unordered_map::insert`, which keeps an existing binding. -/
def insKV {α : Type} : List (Nat × α) → Nat → α → List (Nat × α)
  | [], k, v => [(k, v)]
  | (k0, v0) :: rest, k, v =>
    if k0 = k then (k0, v0) :: rest else (k0, v0) :: insKV rest k v

/-- Boolean membership in a list of value handles. -/
def memB (x : Nat) : List Nat → Bool
  | [] => false
  | y :: rest => x == y || memB x rest

/-- Insert an element into an unordered set represented as a
duplicate-free list. -/
def insVal (l : List Nat) (v : Nat) : List Nat :=
  if memB v l then l else l ++ [v]

/-- Insert every element of `s`; models a range `insert` on
`std::unordered_set`. -/
def insAll (l s : List Nat) : List Nat := s.foldl insVal l

/-- Contents of the set with id `h` (empty for an unknown id). -/
def getSet (st : PTSState) (h : Nat) : List Nat :=
  (alookup st.sets h).getD []

/-- Modelled from the spec: `isInterestingPointer` lives in
`LLVMPointsToUtils`, which is outside this repository slice.  Per the spec
(section 6, glossary) it keeps pointer-typed values and "excludes null,
undef, and other IR-specific uninteresting forms". -/
def isInterestingPointer (ir : IRView) (v : Nat) : Bool :=
  ir.isPointerTy v && !ir.isNullOrUndef v

/-- `LLVMPointsToSet::addSingletonPointsToSet`: if `v` is already bound,
re-insert `v` into its set; otherwise bind `v` to a fresh singleton set. -/
def addSingletonPointsToSet (st : PTSState) (v : Nat) : PTSState :=
  match alookup st.map v with
  | some h => { st with sets := setKV st.sets h (insVal (getSet st h) v) }
  | none =>
      { st with
        map := setKV st.map v st.next,
        sets := setKV st.sets st.next [v],
        next := st.next + 1 }

/-- `LLVMPointsToSet::mergePointsToSets`.  The source asserts that both
values are bound (`assert(SearchV1 != PointsToSets.end())`); the unbound
case is that precondition's failure and is modelled as leaving the state
unchanged.  Otherwise: return if the two keys are equal or `v2` already
lies in `v1`'s set; else insert the smaller set into the larger one,
rebind (`operator[]`) every member of the smaller set to the larger set's
handle, and clear the smaller set. -/
def mergePointsToSets (st : PTSState) (v1 v2 : Nat) : PTSState :=
  match alookup st.map v1, alookup st.map v2 with
  | some h1, some h2 =>
    if v1 = v2 then st
    else
      let s1 := getSet st h1
      if memB v2 s1 then st
      else
        let s2 := getSet st h2
        let hS := if s1.length ≤ s2.length then h1 else h2
        let hL := if s1.length ≤ s2.length then h2 else h1
        let sS := getSet st hS
        let st1 := { st with sets := setKV st.sets hL (insAll (getSet st hL) sS) }
        let st2 := sS.foldl (fun acc x => { acc with map := setKV acc.map x hL }) st1
        { st2 with sets := setKV st2.sets hS [] }
  | _, _ => st

/-- One instruction of the enumeration loop in
`LLVMPointsToSet::computeFunctionsPointsToSet`: collect pointer-typed
instructions, run the store seeding (function-valued stored operand, and
bitcast constant-expression stored operand), then collect the called
operand and interesting data operands of calls, or all interesting
operands of non-call instructions. -/
def processInst (ir : IRView) (acc : List Nat × PTSState) (p : Nat × Inst) :
    List Nat × PTSState :=
  let ptrs := if ir.isPointerTy p.1 then insVal acc.1 p.1 else acc.1
  let st := acc.2
  let st :=
    match p.2 with
    | .store svo spo =>
      if ir.isPointerTy svo then
        let st1 :=
          if ir.isFunc svo then
            mergePointsToSets
              (addSingletonPointsToSet (addSingletonPointsToSet st svo) spo) svo spo
          else st
        match ir.asBitcastCEOp svo with
        | some rhs =>
          let st2 :=
            addSingletonPointsToSet
              (addSingletonPointsToSet (addSingletonPointsToSet st1 rhs) svo) spo
          mergePointsToSets (mergePointsToSets st2 rhs spo) svo spo
        | none => st1
      else st
    | _ => st
  let ptrs :=
    match p.2 with
    | .call callee dataOps =>
      let ptrs1 :=
        if !ir.isFunc callee && isInterestingPointer ir callee then
          insVal ptrs callee
        else ptrs
      dataOps.foldl
        (fun l op => if isInterestingPointer ir op then insVal l op else l) ptrs1
    | .store svo spo =>
      [svo, spo].foldl
        (fun l op => if isInterestingPointer ir op then insVal l op else l) ptrs
    | .other ops =>
      ops.foldl
        (fun l op => if isInterestingPointer ir op then insVal l op else l) ptrs
  (ptrs, st)

/-- Whether an oracle answer triggers a merge in the pairwise loop
(`MayAlias`, `PartialAlias` and `MustAlias` do; `NoAlias` does not). -/
def oracleMerges (r : AliasResult) : Bool :=
  match r with
  | .noAlias => false
  | _ => true

/-- One step of the `(n^2)/2` disambiguation loop: the current pointer is
compared against every earlier pointer, merging on a non-`NoAlias` answer. -/
def pairwiseStep (ir : IRView) (fv : Nat) (acc : List Nat × PTSState) (p : Nat) :
    List Nat × PTSState :=
  (acc.1 ++ [p],
   acc.1.foldl
     (fun st q =>
       if oracleMerges (ir.oracle fv p q) then mergePointsToSets st p q else st)
     acc.2)

/-- `LLVMPointsToSet::computeFunctionsPointsToSet`: return on a null
function; return if already analyzed; otherwise mark analyzed first, then
enumerate pointers (pointer arguments, pointer instructions with the store
seeding, call operands, other operands, module globals), seed a singleton
set per pointer, and run the pairwise disambiguation loop. -/
def computeFunctionsPointsToSet (ir : IRView) (st : PTSState) (f : Option Nat) :
    PTSState :=
  match f with
  | none => st
  | some fv =>
    if memB fv st.analyzed then st
    else
      let st1 := { st with analyzed := insVal st.analyzed fv }
      let fn := (alookup ir.funcs fv).getD { args := [], insts := [], isDeclaration := true }
      let ptrs0 := fn.args.foldl
        (fun l a => if ir.isPointerTy a then insVal l a else l) []
      let pst := fn.insts.foldl (processInst ir) (ptrs0, st1)
      let ptrs := ir.globals.foldl
        (fun l g => if ir.isGlobalVar g then insVal l g else l) pst.1
      let st2 := ptrs.foldl addSingletonPointsToSet pst.2
      (ptrs.foldl (pairwiseStep ir fv) ([], st2)).2

/-- The body of the user loop in `computeValuesPointsToSet` for a global
object `v`: skip users that are not instructions inside a function;
otherwise analyze the user's function, then merge the user with `v` (when
`v` is not a function and the user is interesting) or, for a store user,
merge the stored value into the stored-to pointer. -/
def globalUserStep (ir : IRView) (v : Nat) (acc : PTSState) (u : UserEntry) :
    PTSState :=
  match u.parent with
  | none => acc
  | some pf =>
    let acc := computeFunctionsPointsToSet ir acc (some pf)
    if !ir.isFunc v && isInterestingPointer ir u.id then
      mergePointsToSets acc u.id v
    else
      match u.asStore with
      | some svsp =>
        if isInterestingPointer ir svsp.1 then
          mergePointsToSets acc svsp.1 svsp.2
        else acc
      | none => acc

/-- `LLVMPointsToSet::computeValuesPointsToSet`: return for an
uninteresting value; add a singleton; for a global object walk its
instruction users, analyze each user's function and run the user/store
merges; for a function-local value analyze `retrieveFunction(v)`. -/
def computeValuesPointsToSet (ir : IRView) (st : PTSState) (v : Nat) : PTSState :=
  if !isInterestingPointer ir v then st
  else
    let st := addSingletonPointsToSet st v
    if ir.isGlobalVar v || ir.isFunc v then
      (ir.usersOf v).foldl (globalUserStep ir v) st
    else
      computeFunctionsPointsToSet ir st (ir.retrieveFunc v)

/-- The analyzing constructor `LLVMPointsToSet::LLVMPointsToSet(IRDB,
UseLazyEvaluation, PATy)` for one module: drive the per-value computation
for every global and every function, and when evaluation is not lazy also
analyze every non-declaration function. -/
def constructState (ir : IRView) (useLazyEvaluation : Bool) : PTSState :=
  let st : PTSState := { map := [], sets := [], next := 0, analyzed := [] }
  let st := ir.globals.foldl (fun acc g => computeValuesPointsToSet ir acc g) st
  let st := ir.funcs.foldl (fun acc p => computeValuesPointsToSet ir acc p.1) st
  if !useLazyEvaluation then
    ir.funcs.foldl
      (fun acc p =>
        if p.2.isDeclaration then acc
        else computeFunctionsPointsToSet ir acc (some p.1))
      st
  else st

/-- `LLVMPointsToSet::alias`: `NoAlias` when either value is
uninteresting; otherwise drive computation for both and answer `MustAlias`
exactly when `v2` is a member of `v1`'s set.  The `none` branch of the
final lookup is unreachable (the source dereferences `PointsToSets[V1]`
after `computeValuesPointsToSet(V1)` has bound `V1`). -/
def aliasQuery (ir : IRView) (st : PTSState) (v1 v2 : Nat) :
    PTSState × AliasResult :=
  if !isInterestingPointer ir v1 || !isInterestingPointer ir v2 then
    (st, .noAlias)
  else
    let st := computeValuesPointsToSet ir st v1
    let st := computeValuesPointsToSet ir st v2
    match alookup st.map v1 with
    | some h => (st, if memB v2 (getSet st h) then .mustAlias else .noAlias)
    | none => (st, .noAlias)

/-- `LLVMPointsToSet::getPointsToSet`: a freshly allocated empty set for an
uninteresting value (and for the unreachable case of a still-unbound value
after computation); otherwise the shared set handle from the map. -/
def getPointsToSet (ir : IRView) (st : PTSState) (v : Nat) : PTSState × Nat :=
  if !isInterestingPointer ir v then
    ({ st with sets := setKV st.sets st.next [], next := st.next + 1 }, st.next)
  else
    let st := computeValuesPointsToSet ir st v
    match alookup st.map v with
    | some h => (st, h)
    | none =>
      ({ st with sets := setKV st.sets st.next [], next := st.next + 1 }, st.next)

/-- The handle of the first element of `s` that is bound in `st`'s map;
models the scan in `LLVMPointsToSet::mergeWith` that stops at the first
element of the other engine's set already present in this engine. -/
def findBound (st : PTSState) : List Nat → Option Nat
  | [] => none
  | e :: rest =>
    match alookup st.map e with
    | some h => some h
    | none => findBound st rest

/-- The body of the `mergeWith` loop for one entry `(keyPtr, s)` of the
other engine's map: if some element of `s` is bound in this engine, insert
all of `s` into that element's set and `insert` (not overwrite) a binding
to that set for every element of `s`; otherwise `insert` a binding of
`keyPtr` to a fresh copy of `s`. -/
def mergeWithSet (st : PTSState) (keyPtr : Nat) (s : List Nat) : PTSState :=
  match findBound st s with
  | some h =>
    let st1 := { st with sets := setKV st.sets h (insAll (getSet st h) s) }
    s.foldl (fun acc x => { acc with map := insKV acc.map x h }) st1
  | none =>
    { st with
      map := insKV st.map keyPtr st.next,
      sets := setKV st.sets st.next (insAll [] s),
      next := st.next + 1 }

/-- `LLVMPointsToSet::mergeWith` (after the same-concrete-type check):
union the analyzed-function sets, then process every entry of the other
engine's map. -/
def mergeWith (st other : PTSState) : PTSState :=
  let st0 := { st with analyzed := other.analyzed.foldl insVal st.analyzed }
  other.map.foldl (fun acc kv => mergeWithSet acc kv.1 (getSet other kv.2)) st0

/-- The canonical IR traversal of `psr::traverseIRDB` for one module:
globals, then per function the function itself, its pointer-typed
arguments, and all of its instructions. -/
def traverseIRDB (ir : IRView) : List Nat :=
  ir.globals ++
    ir.funcs.foldl
      (fun acc p =>
        acc ++ [p.1] ++ p.2.args.filter (fun a => ir.isPointerTy a) ++
          p.2.insts.map Prod.fst)
      []

/-- Index of the first occurrence of `v` (the id `traverseIRDB` assigns). -/
def idxOf : List Nat → Nat → Nat
  | [], _ => 0
  | x :: rest, v => if x = v then 0 else idxOf rest v + 1

/-- Positional lookup in the reconstructed id table
(`IdToValueMap[ID]`, whose out-of-range use has no defined behavior). -/
def nthGet {α : Type} : List α → Nat → Option α
  | [], _ => none
  | x :: _, 0 => some x
  | _ :: rest, n + 1 => nthGet rest n

/-- The id `save` writes for a value: its traversal index, or the
default-constructed `0` that `ValueToIdMap[V]` produces for a value the
canonical traversal never visited (e.g. a constant expression). -/
def valueId (ir : IRView) (v : Nat) : Nat :=
  let t := traverseIRDB ir
  if memB v t then idxOf t v else 0

/-- The distinct set handles reachable from the given map entries, in
first-encounter order; models the `Printed` bookkeeping of
`LLVMPointsToSet::save`, which prints each shared set exactly once. -/
def printedOrder : List (Nat × Nat) → List Nat → List Nat
  | [], printed => printed
  | (_, h) :: rest, printed =>
    printedOrder rest (if memB h printed then printed else printed ++ [h])

/-- The persisted text format, framing stripped: the `[AnalyzedFunctions]`
id line and the `[PointsToSets]` id lines (the `[ValueIds]` segment is
ignored by the loader and carries no information). -/
structure PTFile where
  analyzedIds : List Nat
  setIdLines : List (List Nat)
deriving DecidableEq

/-- `LLVMPointsToSet::save`: ids of the analyzed functions, then each
reachable set printed exactly once (tracked by handle identity) as the ids
of its members. -/
def saveFile (ir : IRView) (st : PTSState) : PTFile :=
  { analyzedIds := st.analyzed.map (valueId ir),
    setIdLines :=
      (printedOrder st.map []).map (fun h => (getSet st h).map (valueId ir)) }

/-- The `[AnalyzedFunctions]` loop of `LLVMPointsToSet::load`: each id is
indexed into the reconstructed table with no bounds check (undefined
behavior when out of range, modelled as `none`) and inserted after a
`dyn_cast<llvm::Function>` (a non-function value casts to null, which is
inert for the analysis and skipped here). -/
def loadAnalyzed (ir : IRView) (tbl : List Nat) :
    List Nat → List Nat → Option (List Nat)
  | [], acc => some acc
  | id :: rest, acc =>
    match nthGet tbl id with
    | none => none
    | some v =>
      loadAnalyzed ir tbl rest (if ir.isFunc v then insVal acc v else acc)

/-- One `[PointsToSets]` line of `LLVMPointsToSet::load`: every id on the
line is decoded through the table (unchecked indexing, `none` when out of
range), inserted into the line's freshly allocated set `h`, and its map
entry is rebound (`operator[]`) to `h`. -/
def loadLine (tbl : List Nat) (h : Nat) :
    List Nat → PTSState → Option PTSState
  | [], st => some st
  | id :: rest, st =>
    match nthGet tbl id with
    | none => none
    | some v =>
      loadLine tbl h rest
        { st with
          sets := setKV st.sets h (insVal (getSet st h) v),
          map := setKV st.map v h }

/-- The `[PointsToSets]` loop of `LLVMPointsToSet::load`: one fresh set per
line. -/
def loadSets (tbl : List Nat) : List (List Nat) → PTSState → Option PTSState
  | [], st => some st
  | line :: rest, st =>
    let h := st.next
    let st1 := { st with sets := setKV st.sets h [], next := st.next + 1 }
    match loadLine tbl h line st1 with
    | none => none
    | some st2 => loadSets tbl rest st2

/-- `LLVMPointsToSet::load` into a fresh engine (as the loading
constructor does): rebuild the id table by the canonical traversal, read
the analyzed functions, then the sets. -/
def loadFile (ir : IRView) (file : PTFile) : Option PTSState :=
  let tbl := traverseIRDB ir
  match loadAnalyzed ir tbl file.analyzedIds [] with
  | none => none
  | some an =>
    loadSets tbl file.setIdLines { map := [], sets := [], next := 0, analyzed := an }

/-- Two values are in the same points-to set: their map entries carry the
same (identity-equal) set handle. -/
def sameSet (st : PTSState) (v w : Nat) : Prop :=
  ∃ h, alookup st.map v = some h ∧ alookup st.map w = some h

/-- No key is bound twice (an `std::unordered_map` has unique keys). -/
def nodupKeysB {α : Type} : List (Nat × α) → Bool
  | [] => true
  | (k, _) :: rest => !memB k (rest.map Prod.fst) && nodupKeysB rest

/-- Well-formedness of an engine state: the documented invariants 1-3 of
the spec (every bound value is a member of its own set; members of a
reachable set are all bound to that very set) plus unique map keys and
freshness of the handle allocator. -/
structure WF (st : PTSState) : Prop where
  nodup : nodupKeysB st.map = true
  memOwn : ∀ v h, alookup st.map v = some h → v ∈ getSet st h
  canon : ∀ v h w, alookup st.map v = some h → w ∈ getSet st h →
    alookup st.map w = some h
  fresh : ∀ v h, alookup st.map v = some h → h < st.next

/-- Executable well-formedness check, used to discharge `WF` on concrete
states. -/
def WFb (st : PTSState) : Bool :=
  nodupKeysB st.map &&
  st.map.all (fun kv => memB kv.1 (getSet st kv.2)) &&
  st.map.all (fun kv =>
    (getSet st kv.2).all (fun w => alookup st.map w == some kv.2)) &&
  st.map.all (fun kv => kv.2 < st.next)

/-! ### Basic lemmas about the list primitives -/

theorem memB_iff {x : Nat} : ∀ {l : List Nat}, memB x l = true ↔ x ∈ l := by
  intro l
  induction l with
  | nil => simp [memB]
  | cons y rest ih =>
    simp only [memB, Bool.or_eq_true, beq_iff_eq, ih, List.mem_cons]

theorem memB_append {x : Nat} (a b : List Nat) :
    memB x (a ++ b) = (memB x a || memB x b) := by
  induction a with
  | nil => simp [memB]
  | cons y rest ih => simp [memB, ih, Bool.or_assoc]

theorem mem_insVal {w : Nat} {l : List Nat} {v : Nat} :
    w ∈ insVal l v ↔ w ∈ l ∨ w = v := by
  unfold insVal
  by_cases h : memB v l = true
  · rw [if_pos h]
    constructor
    · exact Or.inl
    · rintro (hw | rfl)
      · exact hw
      · exact memB_iff.1 h
  · rw [if_neg h]
    simp [List.mem_append]

theorem mem_insAll {w : Nat} {s : List Nat} : ∀ {l : List Nat},
    w ∈ insAll l s ↔ w ∈ l ∨ w ∈ s := by
  induction s with
  | nil => simp [insAll]
  | cons y rest ih =>
    intro l
    show w ∈ insAll (insVal l y) rest ↔ _
    rw [ih, mem_insVal]
    simp [or_assoc, or_comm, or_left_comm]

theorem alookup_setKV {α : Type} (l : List (Nat × α)) (k : Nat) (v : α) (k' : Nat) :
    alookup (setKV l k v) k' = if k = k' then some v else alookup l k' := by
  induction l with
  | nil => simp [setKV, alookup]
  | cons p rest ih =>
    obtain ⟨k0, v0⟩ := p
    by_cases h0 : k0 = k
    · subst h0
      simp only [setKV, if_pos rfl, alookup]
      by_cases h1 : k0 = k' <;> simp [h1]
    · simp only [setKV, if_neg h0, alookup, ih]
      by_cases h1 : k0 = k'
      · have h2 : ¬k = k' := fun hh => h0 (h1.trans hh.symm)
        simp [h1, h2]
      · simp [h1]

theorem insKV_present {α : Type} {l : List (Nat × α)} {k : Nat} {w : α}
    (h : alookup l k = some w) (v : α) : insKV l k v = l := by
  induction l with
  | nil => simp [alookup] at h
  | cons p rest ih =>
    obtain ⟨k0, v0⟩ := p
    by_cases h0 : k0 = k
    · simp [insKV, h0]
    · simp only [alookup, if_neg h0] at h
      simp [insKV, h0, ih h]

theorem alookup_insKV_absent {α : Type} {l : List (Nat × α)} {k : Nat}
    (h : alookup l k = none) (v : α) (k' : Nat) :
    alookup (insKV l k v) k' = if k = k' then some v else alookup l k' := by
  induction l with
  | nil => simp [insKV, alookup]
  | cons p rest ih =>
    obtain ⟨k0, v0⟩ := p
    by_cases h0 : k0 = k
    · simp [alookup, h0] at h
    · simp only [alookup, if_neg h0] at h
      simp only [insKV, if_neg h0, alookup, ih h]
      by_cases h1 : k0 = k'
      · subst h1
        simp [Ne.symm h0]
      · simp [h1]

theorem alookup_mem {α : Type} : ∀ {l : List (Nat × α)} {k : Nat} {v : α},
    alookup l k = some v → (k, v) ∈ l := by
  intro l
  induction l with
  | nil => intro k v h; simp [alookup] at h
  | cons p rest ih =>
    intro k v h
    obtain ⟨k0, v0⟩ := p
    by_cases h0 : k0 = k
    · subst h0
      simp [alookup] at h
      simp [h]
    · simp only [alookup, if_neg h0] at h
      exact List.mem_cons_of_mem _ (ih h)

theorem memB_keys_of_mem {α : Type} {l : List (Nat × α)} {k : Nat} {v : α}
    (h : (k, v) ∈ l) : memB k (l.map Prod.fst) = true := by
  induction l with
  | nil => simp at h
  | cons p rest ih =>
    rcases List.mem_cons.1 h with h1 | h1
    · rw [← h1]
      simp [memB]
    · simp [memB, ih h1]

theorem mem_alookup {α : Type} : ∀ {l : List (Nat × α)},
    nodupKeysB l = true → ∀ {k : Nat} {v : α}, (k, v) ∈ l → alookup l k = some v := by
  intro l
  induction l with
  | nil => intro _ k v h; simp at h
  | cons p rest ih =>
    intro hnd k v h
    obtain ⟨k0, v0⟩ := p
    simp only [nodupKeysB, Bool.and_eq_true, Bool.not_eq_true'] at hnd
    rcases List.mem_cons.1 h with h1 | h1
    · injection h1 with ha hb
      subst ha
      subst hb
      simp [alookup]
    · by_cases h0 : k0 = k
      · subst h0
        exact absurd (memB_keys_of_mem h1) (by simp [hnd.1])
      · simp only [alookup, if_neg h0]
        exact ih hnd.2 h1

theorem map_fst_setKV {α : Type} (l : List (Nat × α)) (k : Nat) (v : α) :
    (setKV l k v).map Prod.fst =
      if memB k (l.map Prod.fst) then l.map Prod.fst
      else l.map Prod.fst ++ [k] := by
  induction l with
  | nil => simp [setKV, memB]
  | cons p rest ih =>
    obtain ⟨k0, v0⟩ := p
    by_cases h0 : k0 = k
    · subst h0
      simp [setKV, memB]
    · simp only [setKV, if_neg h0, List.map_cons, ih, memB]
      have : (k == k0) = false := by
        simp [Ne.symm h0]
      rw [this]
      by_cases h1 : memB k (rest.map Prod.fst) = true
      · simp [h1]
      · simp only [Bool.not_eq_true] at h1
        simp [h1]

theorem nodup_setKV {α : Type} {l : List (Nat × α)} (hnd : nodupKeysB l = true)
    (k : Nat) (v : α) : nodupKeysB (setKV l k v) = true := by
  induction l with
  | nil => simp [setKV, nodupKeysB, memB]
  | cons p rest ih =>
    obtain ⟨k0, v0⟩ := p
    simp only [nodupKeysB, Bool.and_eq_true, Bool.not_eq_true'] at hnd
    by_cases h0 : k0 = k
    · subst h0
      simp [setKV, nodupKeysB, hnd.1, hnd.2]
    · simp only [setKV, if_neg h0, nodupKeysB, Bool.and_eq_true, Bool.not_eq_true']
      refine ⟨?_, ih hnd.2⟩
      rw [map_fst_setKV]
      by_cases h1 : memB k (rest.map Prod.fst) = true
      · simp [h1, hnd.1]
      · simp only [Bool.not_eq_true] at h1
        simp [h1, memB_append, memB, hnd.1, h0]

theorem map_fst_insKV {α : Type} (l : List (Nat × α)) (k : Nat) (v : α) :
    (insKV l k v).map Prod.fst =
      if memB k (l.map Prod.fst) then l.map Prod.fst
      else l.map Prod.fst ++ [k] := by
  induction l with
  | nil => simp [insKV, memB]
  | cons p rest ih =>
    obtain ⟨k0, v0⟩ := p
    by_cases h0 : k0 = k
    · subst h0
      simp [insKV, memB]
    · simp only [insKV, if_neg h0, List.map_cons, ih, memB]
      have : (k == k0) = false := by
        simp [Ne.symm h0]
      rw [this]
      by_cases h1 : memB k (rest.map Prod.fst) = true
      · simp [h1]
      · simp only [Bool.not_eq_true] at h1
        simp [h1]

theorem nodup_insKV {α : Type} {l : List (Nat × α)} (hnd : nodupKeysB l = true)
    (k : Nat) (v : α) : nodupKeysB (insKV l k v) = true := by
  induction l with
  | nil => simp [insKV, nodupKeysB, memB]
  | cons p rest ih =>
    obtain ⟨k0, v0⟩ := p
    simp only [nodupKeysB, Bool.and_eq_true, Bool.not_eq_true'] at hnd
    by_cases h0 : k0 = k
    · subst h0
      simp [insKV, nodupKeysB, hnd.1, hnd.2]
    · simp only [insKV, if_neg h0, nodupKeysB, Bool.and_eq_true, Bool.not_eq_true']
      refine ⟨?_, ih hnd.2⟩
      rw [map_fst_insKV]
      by_cases h1 : memB k (rest.map Prod.fst) = true
      · simp [h1, hnd.1]
      · simp only [Bool.not_eq_true] at h1
        simp [h1, memB_append, memB, hnd.1, h0]

theorem WF_of_WFb {st : PTSState} (h : WFb st = true) : WF st := by
  unfold WFb at h
  simp only [Bool.and_eq_true, List.all_eq_true] at h
  obtain ⟨⟨⟨hnd, hown⟩, hcanon⟩, hfresh⟩ := h
  refine ⟨hnd, ?_, ?_, ?_⟩
  · intro v hv hl
    exact memB_iff.1 (hown _ (alookup_mem hl))
  · intro v hv w hl hw
    have := hcanon _ (alookup_mem hl)
    simp only [List.all_eq_true] at this
    have := this w hw
    simpa using this
  · intro v hv hl
    simpa using hfresh _ (alookup_mem hl)

/-! ### Characterization of the store primitives -/

theorem addSingleton_present {st : PTSState} {v hv : Nat}
    (h : alookup st.map v = some hv) :
    addSingletonPointsToSet st v =
      { st with sets := setKV st.sets hv (insVal (getSet st hv) v) } := by
  simp [addSingletonPointsToSet, h]

theorem addSingleton_absent {st : PTSState} {v : Nat}
    (h : alookup st.map v = none) :
    addSingletonPointsToSet st v =
      { st with map := setKV st.map v st.next,
                sets := setKV st.sets st.next [v],
                next := st.next + 1 } := by
  simp [addSingletonPointsToSet, h]

theorem foldl_rebind_map (hL : Nat) : ∀ (xs : List Nat) (st : PTSState) (u : Nat),
    alookup
      ((xs.foldl (fun acc x => { acc with map := setKV acc.map x hL }) st)).map u =
      if u ∈ xs then some hL else alookup st.map u := by
  intro xs
  induction xs with
  | nil => intro st u; simp
  | cons y rest ih =>
    intro st u
    simp only [List.foldl_cons, ih]
    by_cases hr : u ∈ rest
    · simp [hr, List.mem_cons]
    · by_cases hy : u = y
      · subst hy
        simp [hr, alookup_setKV]
      · simp [hr, hy, alookup_setKV, List.mem_cons, Ne.symm hy]

theorem foldl_rebind_rest (hL : Nat) : ∀ (xs : List Nat) (st : PTSState),
    (xs.foldl (fun acc x => { acc with map := setKV acc.map x hL }) st).sets = st.sets ∧
    (xs.foldl (fun acc x => { acc with map := setKV acc.map x hL }) st).next = st.next ∧
    (xs.foldl (fun acc x => { acc with map := setKV acc.map x hL }) st).analyzed =
      st.analyzed := by
  intro xs
  induction xs with
  | nil => intro st; exact ⟨rfl, rfl, rfl⟩
  | cons y rest ih =>
    intro st
    simpa using ih { st with map := setKV st.map y hL }

theorem foldl_rebind_nodup (hL : Nat) : ∀ (xs : List Nat) (st : PTSState),
    nodupKeysB st.map = true →
    nodupKeysB
      ((xs.foldl (fun acc x => { acc with map := setKV acc.map x hL }) st)).map =
      true := by
  intro xs
  induction xs with
  | nil => intro st h; exact h
  | cons y rest ih =>
    intro st h
    exact ih { st with map := setKV st.map y hL } (nodup_setKV h y hL)

theorem mergePointsToSets_missing {st : PTSState} {v1 v2 : Nat}
    (h : alookup st.map v1 = none ∨ alookup st.map v2 = none) :
    mergePointsToSets st v1 v2 = st := by
  unfold mergePointsToSets
  rcases h with h | h
  · rw [h]
  · rw [h]
    cases alookup st.map v1 <;> rfl

theorem mergePointsToSets_shape {st : PTSState} {v1 v2 a b : Nat}
    (h1 : alookup st.map v1 = some a) (h2 : alookup st.map v2 = some b)
    (hv : v1 ≠ v2) (hm : memB v2 (getSet st a) = false) :
    mergePointsToSets st v1 v2 =
      (let hS := if (getSet st a).length ≤ (getSet st b).length then a else b
       let hL := if (getSet st a).length ≤ (getSet st b).length then b else a
       let sS := getSet st hS
       let st1 := { st with sets := setKV st.sets hL (insAll (getSet st hL) sS) }
       let st2 := sS.foldl (fun acc x => { acc with map := setKV acc.map x hL }) st1
       { st2 with sets := setKV st2.sets hS [] }) := by
  simp [mergePointsToSets, h1, h2, hv, hm]

theorem mergePointsToSets_noop {st : PTSState} {v1 v2 a b : Nat} (hWF : WF st)
    (h1 : alookup st.map v1 = some a) (h2 : alookup st.map v2 = some b)
    (hab : a = b) : mergePointsToSets st v1 v2 = st := by
  subst hab
  by_cases hv : v1 = v2
  · simp [mergePointsToSets, h1, h2, hv]
  · have hm : memB v2 (getSet st a) = true :=
      memB_iff.2 (hWF.memOwn v2 a h2)
    simp [mergePointsToSets, h1, h2, hv, hm]

theorem mergeChar {st : PTSState} {v1 v2 a b : Nat} (hWF : WF st)
    (h1 : alookup st.map v1 = some a) (h2 : alookup st.map v2 = some b)
    (hne : a ≠ b) {hS hL : Nat}
    (hhS : hS = if (getSet st a).length ≤ (getSet st b).length then a else b)
    (hhL : hL = if (getSet st a).length ≤ (getSet st b).length then b else a) :
    (∀ x, alookup (mergePointsToSets st v1 v2).map x =
        if x ∈ getSet st hS then some hL else alookup st.map x) ∧
    getSet (mergePointsToSets st v1 v2) hL = insAll (getSet st hL) (getSet st hS) ∧
    getSet (mergePointsToSets st v1 v2) hS = [] ∧
    (∀ h, h ≠ hS → h ≠ hL →
      getSet (mergePointsToSets st v1 v2) h = getSet st h) ∧
    (mergePointsToSets st v1 v2).next = st.next ∧
    (mergePointsToSets st v1 v2).analyzed = st.analyzed ∧
    nodupKeysB (mergePointsToSets st v1 v2).map = true := by
  have hv : v1 ≠ v2 := by
    intro hh
    subst hh
    rw [h1] at h2
    exact hne (Option.some.inj h2)
  have hm : memB v2 (getSet st a) = false := by
    cases hmb : memB v2 (getSet st a) with
    | false => rfl
    | true =>
      have := hWF.canon v1 a v2 h1 (memB_iff.1 hmb)
      rw [h2] at this
      exact absurd (Option.some.inj this).symm hne
  have hSL : hS ≠ hL := by
    by_cases hlen : (getSet st a).length ≤ (getSet st b).length
    · rw [hhS, hhL, if_pos hlen, if_pos hlen]; exact hne
    · rw [hhS, hhL, if_neg hlen, if_neg hlen]; exact Ne.symm hne
  rw [mergePointsToSets_shape h1 h2 hv hm]
  simp only []
  rw [← hhS, ← hhL]
  obtain ⟨hsets, hnext, han⟩ :=
    foldl_rebind_rest hL (getSet st hS)
      { st with sets := setKV st.sets hL (insAll (getSet st hL) (getSet st hS)) }
  refine ⟨?_, ?_, ?_, ?_, ?_, ?_, ?_⟩
  · intro x
    rw [foldl_rebind_map]
  · simp only [getSet] at hsets ⊢
    rw [hsets]
    simp [alookup_setKV, hSL]
  · simp [getSet, hsets, alookup_setKV]
  · intro h hhs hhl
    simp only [getSet] at hsets ⊢
    rw [hsets]
    simp [alookup_setKV, Ne.symm hhs, Ne.symm hhl]
  · exact hnext
  · exact han
  · exact foldl_rebind_nodup hL _ _ hWF.nodup

/-- The merged composite state of `mergePointsToSets` once both values are
bound, the keys differ, and `v2` is not already in `v1`'s set. -/
def mergeComposite (st : PTSState) (a b : Nat) : PTSState :=
  let s1 := getSet st a
  let s2 := getSet st b
  let hS := if s1.length ≤ s2.length then a else b
  let hL := if s1.length ≤ s2.length then b else a
  let sS := getSet st hS
  let st1 := { st with sets := setKV st.sets hL (insAll (getSet st hL) sS) }
  let st2 := sS.foldl (fun acc x => { acc with map := setKV acc.map x hL }) st1
  { st2 with sets := setKV st2.sets hS [] }

theorem merge_cases (st : PTSState) (v1 v2 : Nat) :
    mergePointsToSets st v1 v2 = st ∨
    ∃ a b, alookup st.map v1 = some a ∧ alookup st.map v2 = some b ∧
      mergePointsToSets st v1 v2 = mergeComposite st a b := by
  cases h1 : alookup st.map v1 with
  | none => exact Or.inl (mergePointsToSets_missing (Or.inl h1))
  | some a =>
    cases h2 : alookup st.map v2 with
    | none => exact Or.inl (mergePointsToSets_missing (Or.inr h2))
    | some b =>
      by_cases hv : v1 = v2
      · exact Or.inl (by simp [mergePointsToSets, h1, h2, hv])
      · by_cases hm : memB v2 (getSet st a) = true
        · exact Or.inl (by simp [mergePointsToSets, h1, h2, hv, hm])
        · simp only [Bool.not_eq_true] at hm
          refine Or.inr ⟨a, b, rfl, rfl, ?_⟩
          rw [mergePointsToSets_shape h1 h2 hv hm]
          rfl

theorem merge_next (st : PTSState) (v1 v2 : Nat) :
    (mergePointsToSets st v1 v2).next = st.next := by
  rcases merge_cases st v1 v2 with heq | ⟨a, b, _, _, heq⟩
  · rw [heq]
  · rw [heq]
    unfold mergeComposite
    simp only []
    exact (foldl_rebind_rest _ _ _).2.1

theorem merge_analyzed (st : PTSState) (v1 v2 : Nat) :
    (mergePointsToSets st v1 v2).analyzed = st.analyzed := by
  rcases merge_cases st v1 v2 with heq | ⟨a, b, _, _, heq⟩
  · rw [heq]
  · rw [heq]
    unfold mergeComposite
    simp only []
    exact (foldl_rebind_rest _ _ _).2.2

theorem merge_keys_mono (st : PTSState) (v1 v2 u : Nat)
    (h : (alookup st.map u).isSome = true) :
    (alookup (mergePointsToSets st v1 v2).map u).isSome = true := by
  rcases merge_cases st v1 v2 with heq | ⟨a, b, _, _, heq⟩
  · rw [heq]; exact h
  · rw [heq]
    unfold mergeComposite
    simp only []
    rw [foldl_rebind_map]
    by_cases hm :
        u ∈ getSet st (if (getSet st a).length ≤ (getSet st b).length then a else b)
    · rw [if_pos hm]
      rfl
    · rw [if_neg hm]
      exact h

theorem addSingleton_lookup_present {st : PTSState} {v hv : Nat}
    (h : alookup st.map v = some hv) (u : Nat) :
    alookup (addSingletonPointsToSet st v).map u = alookup st.map u := by
  rw [addSingleton_present h]

theorem addSingleton_lookup_absent {st : PTSState} {v : Nat}
    (h : alookup st.map v = none) (u : Nat) :
    alookup (addSingletonPointsToSet st v).map u =
      if v = u then some st.next else alookup st.map u := by
  rw [addSingleton_absent h]
  exact alookup_setKV st.map v st.next u

theorem addSingleton_getSet_present {st : PTSState} {v hv : Nat}
    (h : alookup st.map v = some hv) (h' : Nat) :
    getSet (addSingletonPointsToSet st v) h' =
      if hv = h' then insVal (getSet st hv) v else getSet st h' := by
  rw [addSingleton_present h]
  simp only [getSet, alookup_setKV]
  by_cases hh : hv = h' <;> simp [hh]

theorem addSingleton_getSet_absent {st : PTSState} {v : Nat}
    (h : alookup st.map v = none) (h' : Nat) :
    getSet (addSingletonPointsToSet st v) h' =
      if st.next = h' then [v] else getSet st h' := by
  rw [addSingleton_absent h]
  simp only [getSet, alookup_setKV]
  by_cases hh : st.next = h' <;> simp [hh]

theorem addSingleton_next (st : PTSState) (v : Nat) :
    st.next ≤ (addSingletonPointsToSet st v).next := by
  cases h : alookup st.map v with
  | some hv => rw [addSingleton_present h]
  | none =>
    rw [addSingleton_absent h]
    exact Nat.le_succ _

theorem addSingleton_analyzed (st : PTSState) (v : Nat) :
    (addSingletonPointsToSet st v).analyzed = st.analyzed := by
  cases h : alookup st.map v with
  | some hv => rw [addSingleton_present h]
  | none => rw [addSingleton_absent h]

theorem addSingleton_key (st : PTSState) (v : Nat) :
    (alookup (addSingletonPointsToSet st v).map v).isSome = true := by
  cases h : alookup st.map v with
  | some hv => rw [addSingleton_lookup_present h, h]; rfl
  | none => rw [addSingleton_lookup_absent h, if_pos rfl]; rfl

theorem addSingleton_keys_mono (st : PTSState) (v u : Nat)
    (h : (alookup st.map u).isSome = true) :
    (alookup (addSingletonPointsToSet st v).map u).isSome = true := by
  cases hv : alookup st.map v with
  | some hv' => rw [addSingleton_lookup_present hv]; exact h
  | none =>
    rw [addSingleton_lookup_absent hv]
    by_cases hvu : v = u
    · rw [if_pos hvu]; rfl
    · rw [if_neg hvu]; exact h

theorem sameSet_addSingleton_mono {st : PTSState} {v w : Nat}
    (hss : sameSet st v w) (u : Nat) :
    sameSet (addSingletonPointsToSet st u) v w := by
  obtain ⟨h, hv, hw⟩ := hss
  cases hu : alookup st.map u with
  | some hu' =>
    exact ⟨h, by rw [addSingleton_lookup_present hu]; exact hv,
      by rw [addSingleton_lookup_present hu]; exact hw⟩
  | none =>
    have hv' : ¬u = v := by
      intro hh
      subst hh
      rw [hv] at hu
      cases hu
    have hw' : ¬u = w := by
      intro hh
      subst hh
      rw [hw] at hu
      cases hu
    exact ⟨h, by rw [addSingleton_lookup_absent hu, if_neg hv']; exact hv,
      by rw [addSingleton_lookup_absent hu, if_neg hw']; exact hw⟩

theorem WF_addSingleton {st : PTSState} (hWF : WF st) (v : Nat) :
    WF (addSingletonPointsToSet st v) := by
  cases h : alookup st.map v with
  | some hv =>
    refine ⟨?_, ?_, ?_, ?_⟩
    · rw [addSingleton_present h]
      exact hWF.nodup
    · intro u hu hlu
      rw [addSingleton_lookup_present h] at hlu
      rw [addSingleton_getSet_present h]
      by_cases hh : hv = hu
      · subst hh
        rw [if_pos rfl]
        exact mem_insVal.2 (Or.inl (hWF.memOwn u _ hlu))
      · rw [if_neg hh]
        exact hWF.memOwn u _ hlu
    · intro u hu w hlu hw
      rw [addSingleton_lookup_present h] at hlu
      rw [addSingleton_lookup_present h]
      rw [addSingleton_getSet_present h] at hw
      by_cases hh : hv = hu
      · subst hh
        rw [if_pos rfl] at hw
        rcases mem_insVal.1 hw with hw | rfl
        · exact hWF.canon u _ w hlu hw
        · exact h
      · rw [if_neg hh] at hw
        exact hWF.canon u _ w hlu hw
    · intro u hu hlu
      rw [addSingleton_lookup_present h] at hlu
      have hnx : (addSingletonPointsToSet st v).next = st.next := by
        rw [addSingleton_present h]
      rw [hnx]
      exact hWF.fresh u _ hlu
  | none =>
    refine ⟨?_, ?_, ?_, ?_⟩
    · rw [addSingleton_absent h]
      exact nodup_setKV hWF.nodup v st.next
    · intro u hu hlu
      rw [addSingleton_lookup_absent h] at hlu
      rw [addSingleton_getSet_absent h]
      by_cases hvu : v = u
      · subst hvu
        rw [if_pos rfl] at hlu
        injection hlu with hlu
        subst hlu
        rw [if_pos rfl]
        exact List.mem_singleton.2 rfl
      · rw [if_neg hvu] at hlu
        have hne : hu ≠ st.next := Nat.ne_of_lt (hWF.fresh u hu hlu)
        rw [if_neg (Ne.symm hne)]
        exact hWF.memOwn u hu hlu
    · intro u hu w hlu hw
      rw [addSingleton_lookup_absent h] at hlu
      rw [addSingleton_lookup_absent h]
      rw [addSingleton_getSet_absent h] at hw
      by_cases hvu : v = u
      · subst hvu
        rw [if_pos rfl] at hlu
        injection hlu with hlu
        subst hlu
        rw [if_pos rfl] at hw
        have hwv : w = v := by simpa using hw
        subst hwv
        rw [if_pos rfl]
      · rw [if_neg hvu] at hlu
        have hne : hu ≠ st.next := Nat.ne_of_lt (hWF.fresh u hu hlu)
        rw [if_neg (Ne.symm hne)] at hw
        have hwold := hWF.canon u hu w hlu hw
        have hvw : ¬v = w := by
          intro hh
          subst hh
          rw [hwold] at h
          cases h
        rw [if_neg hvw]
        exact hwold
    · intro u hu hlu
      rw [addSingleton_lookup_absent h] at hlu
      have hnx : (addSingletonPointsToSet st v).next = st.next + 1 := by
        rw [addSingleton_absent h]
      rw [hnx]
      by_cases hvu : v = u
      · subst hvu
        rw [if_pos rfl] at hlu
        injection hlu with hlu
        subst hlu
        exact Nat.lt_succ_self _
      · rw [if_neg hvu] at hlu
        exact Nat.lt_succ_of_lt (hWF.fresh u hu hlu)

theorem WF_merge {st : PTSState} (hWF : WF st) (v1 v2 : Nat) :
    WF (mergePointsToSets st v1 v2) := by
  cases h1 : alookup st.map v1 with
  | none => rw [mergePointsToSets_missing (Or.inl h1)]; exact hWF
  | some a =>
  cases h2 : alookup st.map v2 with
  | none => rw [mergePointsToSets_missing (Or.inr h2)]; exact hWF
  | some b =>
  by_cases hab : a = b
  · rw [mergePointsToSets_noop hWF h1 h2 hab]
    exact hWF
  · obtain ⟨hmap, hgL, hgS, hgO, hnext, han, hnd⟩ := mergeChar hWF h1 h2 hab rfl rfl
    set hS := if (getSet st a).length ≤ (getSet st b).length then a else b with hhS
    set hL := if (getSet st a).length ≤ (getSet st b).length then b else a with hhL
    have hSL : hS ≠ hL := by
      by_cases hlen : (getSet st a).length ≤ (getSet st b).length
      · rw [hhS, hhL, if_pos hlen, if_pos hlen]; exact hab
      · rw [hhS, hhL, if_neg hlen, if_neg hlen]; exact Ne.symm hab
    have hSwit : ∃ y, alookup st.map y = some hS := by
      by_cases hlen : (getSet st a).length ≤ (getSet st b).length
      · exact ⟨v1, by rw [hhS, if_pos hlen]; exact h1⟩
      · exact ⟨v2, by rw [hhS, if_neg hlen]; exact h2⟩
    have hLwit : ∃ y, alookup st.map y = some hL := by
      by_cases hlen : (getSet st a).length ≤ (getSet st b).length
      · exact ⟨v2, by rw [hhL, if_pos hlen]; exact h2⟩
      · exact ⟨v1, by rw [hhL, if_neg hlen]; exact h1⟩
    have notS : ∀ w, alookup st.map w = some hL → w ∉ getSet st hS := by
      intro w hwold hmem
      obtain ⟨z, hz⟩ := hSwit
      have h2w := hWF.canon z hS w hz hmem
      rw [hwold] at h2w
      exact hSL (Option.some.inj h2w).symm
    refine ⟨hnd, ?_, ?_, ?_⟩
    · intro x h hx
      rw [hmap x] at hx
      by_cases hxs : x ∈ getSet st hS
      · rw [if_pos hxs] at hx
        injection hx with hx
        subst hx
        rw [hgL]
        exact mem_insAll.2 (Or.inr hxs)
      · rw [if_neg hxs] at hx
        have hxo := hWF.memOwn x h hx
        by_cases hhs : h = hS
        · subst hhs
          exact absurd hxo hxs
        · by_cases hhl : h = hL
          · subst hhl
            rw [hgL]
            exact mem_insAll.2 (Or.inl hxo)
          · rw [hgO h hhs hhl]
            exact hxo
    · intro x h w hx hw
      rw [hmap x] at hx
      rw [hmap w]
      by_cases hxs : x ∈ getSet st hS
      · rw [if_pos hxs] at hx
        injection hx with hx
        subst hx
        rw [hgL] at hw
        rcases mem_insAll.1 hw with hwl | hws
        · obtain ⟨y, hy⟩ := hLwit
          have hwold := hWF.canon y hL w hy hwl
          rw [if_neg (notS w hwold)]
          exact hwold
        · rw [if_pos hws]
      · rw [if_neg hxs] at hx
        by_cases hhs : h = hS
        · subst hhs
          exact absurd (hWF.memOwn x _ hx) hxs
        · by_cases hhl : h = hL
          · subst hhl
            rw [hgL] at hw
            rcases mem_insAll.1 hw with hwl | hws
            · have hwold := hWF.canon x hL w hx hwl
              rw [if_neg (notS w hwold)]
              exact hwold
            · rw [if_pos hws]
          · rw [hgO h hhs hhl] at hw
            have hwold := hWF.canon x h w hx hw
            have hwns : w ∉ getSet st hS := by
              intro hmem
              obtain ⟨z, hz⟩ := hSwit
              have h2w := hWF.canon z hS w hz hmem
              rw [hwold] at h2w
              exact hhs (Option.some.inj h2w)
            rw [if_neg hwns]
            exact hwold
    · intro x h hx
      rw [hmap x] at hx
      rw [hnext]
      by_cases hxs : x ∈ getSet st hS
      · rw [if_pos hxs] at hx
        injection hx with hx
        subst hx
        obtain ⟨y, hy⟩ := hLwit
        exact hWF.fresh y hL hy
      · rw [if_neg hxs] at hx
        exact hWF.fresh x h hx

theorem merge_sameSet {st : PTSState} {v1 v2 a b : Nat} (hWF : WF st)
    (h1 : alookup st.map v1 = some a) (h2 : alookup st.map v2 = some b) :
    sameSet (mergePointsToSets st v1 v2) v1 v2 := by
  by_cases hab : a = b
  · rw [mergePointsToSets_noop hWF h1 h2 hab]
    exact ⟨a, h1, hab ▸ h2⟩
  · obtain ⟨hmap, _, _, _, _, _, _⟩ := mergeChar hWF h1 h2 hab rfl rfl
    set hS := if (getSet st a).length ≤ (getSet st b).length then a else b with hhS
    set hL := if (getSet st a).length ≤ (getSet st b).length then b else a with hhL
    have hv1 : alookup (mergePointsToSets st v1 v2).map v1 = some hL := by
      rw [hmap v1]
      by_cases hlen : (getSet st a).length ≤ (getSet st b).length
      · have hmem : v1 ∈ getSet st hS := by
          rw [hhS, if_pos hlen]
          exact hWF.memOwn v1 a h1
        rw [if_pos hmem]
      · have hmem : v1 ∉ getSet st hS := by
          rw [hhS, if_neg hlen]
          intro hmem
          have := hWF.canon v2 b v1 h2 hmem
          rw [h1] at this
          exact hab (Option.some.inj this)
        rw [if_neg hmem, h1, hhL, if_neg hlen]
    have hv2 : alookup (mergePointsToSets st v1 v2).map v2 = some hL := by
      rw [hmap v2]
      by_cases hlen : (getSet st a).length ≤ (getSet st b).length
      · have hmem : v2 ∉ getSet st hS := by
          rw [hhS, if_pos hlen]
          intro hmem
          have := hWF.canon v1 a v2 h1 hmem
          rw [h2] at this
          exact hab (Option.some.inj this).symm
        rw [if_neg hmem, h2, hhL, if_pos hlen]
      · have hmem : v2 ∈ getSet st hS := by
          rw [hhS, if_neg hlen]
          exact hWF.memOwn v2 b h2
        rw [if_pos hmem]
    exact ⟨hL, hv1, hv2⟩

theorem sameSet_merge_mono {st : PTSState} (hWF : WF st) (v1 v2 : Nat)
    {v w : Nat} (hss : sameSet st v w) :
    sameSet (mergePointsToSets st v1 v2) v w := by
  obtain ⟨h, hv, hw⟩ := hss
  cases h1 : alookup st.map v1 with
  | none => rw [mergePointsToSets_missing (Or.inl h1)]; exact ⟨h, hv, hw⟩
  | some a =>
  cases h2 : alookup st.map v2 with
  | none => rw [mergePointsToSets_missing (Or.inr h2)]; exact ⟨h, hv, hw⟩
  | some b =>
  by_cases hab : a = b
  · rw [mergePointsToSets_noop hWF h1 h2 hab]
    exact ⟨h, hv, hw⟩
  · obtain ⟨hmap, _, _, _, _, _, _⟩ := mergeChar hWF h1 h2 hab rfl rfl
    set hS := if (getSet st a).length ≤ (getSet st b).length then a else b with hhS
    set hL := if (getSet st a).length ≤ (getSet st b).length then b else a with hhL
    have hSwit : ∃ y, alookup st.map y = some hS := by
      by_cases hlen : (getSet st a).length ≤ (getSet st b).length
      · exact ⟨v1, by rw [hhS, if_pos hlen]; exact h1⟩
      · exact ⟨v2, by rw [hhS, if_neg hlen]; exact h2⟩
    by_cases hhs : h = hS
    · subst hhs
      refine ⟨hL, ?_, ?_⟩
      · rw [hmap v, if_pos (hWF.memOwn v _ hv)]
      · rw [hmap w, if_pos (hWF.memOwn w _ hw)]
    · have hvn : v ∉ getSet st hS := by
        intro hmem
        obtain ⟨z, hz⟩ := hSwit
        have := hWF.canon z hS v hz hmem
        rw [hv] at this
        exact hhs (Option.some.inj this)
      have hwn : w ∉ getSet st hS := by
        intro hmem
        obtain ⟨z, hz⟩ := hSwit
        have := hWF.canon z hS w hz hmem
        rw [hw] at this
        exact hhs (Option.some.inj this)
      exact ⟨h, by rw [hmap v, if_neg hvn]; exact hv,
        by rw [hmap w, if_neg hwn]; exact hw⟩

/-! ### Preservation through the per-function analysis -/

theorem foldl_pres {β : Type} (P : PTSState → Prop) (f : PTSState → β → PTSState)
    (hf : ∀ s b, P s → P (f s b)) :
    ∀ (l : List β) (s : PTSState), P s → P (l.foldl f s) := by
  intro l
  induction l with
  | nil => intro s hs; exact hs
  | cons x rest ih => intro s hs; exact ih _ (hf s x hs)

theorem foldl_pres_snd {β γ : Type} (P : PTSState → Prop)
    (f : γ × PTSState → β → γ × PTSState)
    (hf : ∀ s b, P s.2 → P (f s b).2) :
    ∀ (l : List β) (s : γ × PTSState), P s.2 → P (l.foldl f s).2 := by
  intro l
  induction l with
  | nil => intro s hs; exact hs
  | cons x rest ih => intro s hs; exact ih _ (hf s x hs)

theorem foldl_proj_const {β : Type} (proj : PTSState → List Nat)
    (f : PTSState → β → PTSState) (hf : ∀ s b, proj (f s b) = proj s) :
    ∀ (l : List β) (s : PTSState), proj (l.foldl f s) = proj s := by
  intro l
  induction l with
  | nil => intro s; rfl
  | cons x rest ih =>
    intro s
    simp only [List.foldl_cons]
    rw [ih, hf]

/-- The state effect of one instruction in the enumeration loop (the store
seeding); the pointer-collection part of `processInst` does not touch the
state. -/
def storeSeedState (ir : IRView) (st : PTSState) (i : Inst) : PTSState :=
  match i with
  | .store svo spo =>
    if ir.isPointerTy svo then
      let st1 :=
        if ir.isFunc svo then
          mergePointsToSets
            (addSingletonPointsToSet (addSingletonPointsToSet st svo) spo) svo spo
        else st
      match ir.asBitcastCEOp svo with
      | some rhs =>
        let st2 :=
          addSingletonPointsToSet
            (addSingletonPointsToSet (addSingletonPointsToSet st1 rhs) svo) spo
        mergePointsToSets (mergePointsToSets st2 rhs spo) svo spo
      | none => st1
    else st
  | _ => st

theorem processInst_snd (ir : IRView) (acc : List Nat × PTSState) (p : Nat × Inst) :
    (processInst ir acc p).2 = storeSeedState ir acc.2 p.2 := by
  obtain ⟨ptrs, st⟩ := acc
  obtain ⟨iid, i⟩ := p
  cases i <;> rfl

theorem WF_storeSeed {ir : IRView} {st : PTSState} (h : WF st) (i : Inst) :
    WF (storeSeedState ir st i) := by
  cases i with
  | store svo spo =>
    unfold storeSeedState
    by_cases hp : ir.isPointerTy svo = true
    · simp only [hp, if_true]
      have h1 :
          WF (if ir.isFunc svo = true then
            mergePointsToSets
              (addSingletonPointsToSet (addSingletonPointsToSet st svo) spo) svo spo
          else st) := by
        by_cases hf : ir.isFunc svo = true
        · rw [if_pos hf]
          exact WF_merge (WF_addSingleton (WF_addSingleton h svo) spo) svo spo
        · rw [if_neg hf]
          exact h
      cases hce : ir.asBitcastCEOp svo with
      | none => simpa [hce] using h1
      | some rhs =>
        simp only [hce]
        exact WF_merge (WF_merge
          (WF_addSingleton (WF_addSingleton (WF_addSingleton h1 rhs) svo) spo)
          rhs spo) svo spo
    · simpa [hp] using h
  | call callee dataOps => exact h
  | other ops => exact h

theorem storeSeed_analyzed (ir : IRView) (st : PTSState) (i : Inst) :
    (storeSeedState ir st i).analyzed = st.analyzed := by
  cases i with
  | store svo spo =>
    unfold storeSeedState
    by_cases hp : ir.isPointerTy svo = true
    · simp only [hp, if_true]
      have h1 :
          (if ir.isFunc svo = true then
            mergePointsToSets
              (addSingletonPointsToSet (addSingletonPointsToSet st svo) spo) svo spo
          else st).analyzed = st.analyzed := by
        by_cases hf : ir.isFunc svo = true
        · rw [if_pos hf, merge_analyzed, addSingleton_analyzed, addSingleton_analyzed]
        · rw [if_neg hf]
      cases hce : ir.asBitcastCEOp svo with
      | none => simpa [hce] using h1
      | some rhs =>
        simp only [hce]
        rw [merge_analyzed, merge_analyzed, addSingleton_analyzed,
          addSingleton_analyzed, addSingleton_analyzed]
        exact h1
    · simp [hp]
  | call callee dataOps => rfl
  | other ops => rfl

theorem storeSeed_keys_mono {ir : IRView} {st : PTSState} {u : Nat}
    (h : (alookup st.map u).isSome = true) (i : Inst) :
    (alookup (storeSeedState ir st i).map u).isSome = true := by
  cases i with
  | store svo spo =>
    unfold storeSeedState
    by_cases hp : ir.isPointerTy svo = true
    · simp only [hp, if_true]
      have h1 :
          (alookup
            (if ir.isFunc svo = true then
              mergePointsToSets
                (addSingletonPointsToSet (addSingletonPointsToSet st svo) spo) svo spo
            else st).map u).isSome = true := by
        by_cases hf : ir.isFunc svo = true
        · rw [if_pos hf]
          exact merge_keys_mono _ _ _ _
            (addSingleton_keys_mono _ _ _ (addSingleton_keys_mono _ _ _ h))
        · rw [if_neg hf]
          exact h
      cases hce : ir.asBitcastCEOp svo with
      | none => simpa [hce] using h1
      | some rhs =>
        simp only [hce]
        exact merge_keys_mono _ _ _ _ (merge_keys_mono _ _ _ _
          (addSingleton_keys_mono _ _ _ (addSingleton_keys_mono _ _ _
            (addSingleton_keys_mono _ _ _ h1))))
    · simp only [hp]
      simpa using h
  | call callee dataOps => exact h
  | other ops => exact h

theorem storeSeed_sameSet {ir : IRView} {st : PTSState} {v w : Nat}
    (h : WF st ∧ sameSet st v w) (i : Inst) :
    WF (storeSeedState ir st i) ∧ sameSet (storeSeedState ir st i) v w := by
  cases i with
  | store svo spo =>
    refine ⟨WF_storeSeed h.1 _, ?_⟩
    unfold storeSeedState
    by_cases hp : ir.isPointerTy svo = true
    · simp only [hp, if_true]
      have h1 :
          WF (if ir.isFunc svo = true then
            mergePointsToSets
              (addSingletonPointsToSet (addSingletonPointsToSet st svo) spo) svo spo
          else st) ∧
          sameSet (if ir.isFunc svo = true then
            mergePointsToSets
              (addSingletonPointsToSet (addSingletonPointsToSet st svo) spo) svo spo
          else st) v w := by
        by_cases hf : ir.isFunc svo = true
        · rw [if_pos hf]
          have hw1 := WF_addSingleton (WF_addSingleton h.1 svo) spo
          refine ⟨WF_merge hw1 svo spo, ?_⟩
          exact sameSet_merge_mono hw1 svo spo
            (sameSet_addSingleton_mono (sameSet_addSingleton_mono h.2 svo) spo)
        · rw [if_neg hf]
          exact h
      cases hce : ir.asBitcastCEOp svo with
      | none => simpa [hce] using h1.2
      | some rhs =>
        simp only [hce]
        have hw2 := WF_addSingleton (WF_addSingleton (WF_addSingleton h1.1 rhs) svo) spo
        have hw3 := WF_merge hw2 rhs spo
        exact sameSet_merge_mono hw3 svo spo (sameSet_merge_mono hw2 rhs spo
          (sameSet_addSingleton_mono (sameSet_addSingleton_mono
            (sameSet_addSingleton_mono h1.2 rhs) svo) spo))
    · simp only [hp]
      simpa using h.2
  | call callee dataOps => exact h
  | other ops => exact h

theorem WF_pairwiseStep (ir : IRView) (fv : Nat) (s : List Nat × PTSState) (p : Nat)
    (h : WF s.2) : WF (pairwiseStep ir fv s p).2 := by
  unfold pairwiseStep
  refine foldl_pres WF _ ?_ s.1 s.2 h
  intro st q hq
  by_cases ho : oracleMerges (ir.oracle fv p q) = true
  · rw [if_pos ho]
    exact WF_merge hq p q
  · rw [if_neg ho]
    exact hq

theorem pairwiseStep_analyzed (ir : IRView) (fv : Nat) (s : List Nat × PTSState)
    (p : Nat) : (pairwiseStep ir fv s p).2.analyzed = s.2.analyzed := by
  unfold pairwiseStep
  refine foldl_proj_const PTSState.analyzed _ ?_ s.1 s.2
  intro st q
  by_cases ho : oracleMerges (ir.oracle fv p q) = true
  · rw [if_pos ho, merge_analyzed]
  · rw [if_neg ho]

theorem pairwiseStep_keys_mono (ir : IRView) (fv : Nat) (s : List Nat × PTSState)
    (p u : Nat) (h : (alookup s.2.map u).isSome = true) :
    (alookup (pairwiseStep ir fv s p).2.map u).isSome = true := by
  unfold pairwiseStep
  refine foldl_pres (fun st => (alookup st.map u).isSome = true) _ ?_ s.1 s.2 h
  intro st q hq
  by_cases ho : oracleMerges (ir.oracle fv p q) = true
  · rw [if_pos ho]
    exact merge_keys_mono _ _ _ _ hq
  · rw [if_neg ho]
    exact hq

theorem pairwiseStep_sameSet (ir : IRView) (fv : Nat) (s : List Nat × PTSState)
    (p : Nat) {v w : Nat} (h : WF s.2 ∧ sameSet s.2 v w) :
    WF (pairwiseStep ir fv s p).2 ∧ sameSet (pairwiseStep ir fv s p).2 v w := by
  unfold pairwiseStep
  refine foldl_pres (fun st => WF st ∧ sameSet st v w) _ ?_ s.1 s.2 h
  intro st q hq
  by_cases ho : oracleMerges (ir.oracle fv p q) = true
  · rw [if_pos ho]
    exact ⟨WF_merge hq.1 p q, sameSet_merge_mono hq.1 p q hq.2⟩
  · rw [if_neg ho]
    exact hq

theorem WF_analyzed_update {st : PTSState} (h : WF st) (a : List Nat) :
    WF { st with analyzed := a } :=
  ⟨h.nodup, h.memOwn, h.canon, h.fresh⟩

theorem WF_computeFunctions (ir : IRView) {st : PTSState} (hWF : WF st)
    (f : Option Nat) : WF (computeFunctionsPointsToSet ir st f) := by
  cases f with
  | none => exact hWF
  | some fv =>
    unfold computeFunctionsPointsToSet
    by_cases ha : memB fv st.analyzed = true
    · simp only [ha, if_true]
      exact hWF
    · simp only [ha, Bool.false_eq_true, if_false]
      refine foldl_pres_snd WF _ (fun s b hs => WF_pairwiseStep ir fv s b hs) _ _ ?_
      refine foldl_pres WF _ (fun s b hs => WF_addSingleton hs b) _ _ ?_
      refine foldl_pres_snd WF _
        (fun s b hs => by rw [processInst_snd]; exact WF_storeSeed hs b.2) _ _ ?_
      exact WF_analyzed_update hWF _

theorem computeFunctions_keys_mono (ir : IRView) {st : PTSState} {u : Nat}
    (h : (alookup st.map u).isSome = true) (f : Option Nat) :
    (alookup (computeFunctionsPointsToSet ir st f).map u).isSome = true := by
  cases f with
  | none => exact h
  | some fv =>
    unfold computeFunctionsPointsToSet
    by_cases ha : memB fv st.analyzed = true
    · simp only [ha, if_true]
      exact h
    · simp only [ha, Bool.false_eq_true, if_false]
      refine foldl_pres_snd (fun s => (alookup s.map u).isSome = true) _
        (fun s b hs => pairwiseStep_keys_mono ir fv s b u hs) _ _ ?_
      refine foldl_pres (fun s => (alookup s.map u).isSome = true) _
        (fun s b hs => addSingleton_keys_mono s b u hs) _ _ ?_
      refine foldl_pres_snd (fun s => (alookup s.map u).isSome = true) _
        (fun s b hs => by rw [processInst_snd]; exact storeSeed_keys_mono hs b.2) _ _ ?_
      exact h

theorem computeFunctions_sameSet (ir : IRView) {st : PTSState} {v w : Nat}
    (h : WF st ∧ sameSet st v w) (f : Option Nat) :
    WF (computeFunctionsPointsToSet ir st f) ∧
      sameSet (computeFunctionsPointsToSet ir st f) v w := by
  cases f with
  | none => exact h
  | some fv =>
    unfold computeFunctionsPointsToSet
    by_cases ha : memB fv st.analyzed = true
    · simp only [ha, if_true]
      exact h
    · simp only [ha, Bool.false_eq_true, if_false]
      refine foldl_pres_snd (fun s => WF s ∧ sameSet s v w) _
        (fun s b hs => pairwiseStep_sameSet ir fv s b hs) _ _ ?_
      refine foldl_pres (fun s => WF s ∧ sameSet s v w) _
        (fun s b hs => ⟨WF_addSingleton hs.1 b, sameSet_addSingleton_mono hs.2 b⟩) _ _ ?_
      refine foldl_pres_snd (fun s => WF s ∧ sameSet s v w) _
        (fun s b hs => by rw [processInst_snd]; exact storeSeed_sameSet hs b.2) _ _ ?_
      exact ⟨WF_analyzed_update h.1 _, h.2⟩

theorem analyzed_computeFunctions (ir : IRView) (st : PTSState) (f : Option Nat)
    (w : Nat) :
    w ∈ (computeFunctionsPointsToSet ir st f).analyzed ↔
      w ∈ st.analyzed ∨ f = some w := by
  cases f with
  | none =>
    simp only [computeFunctionsPointsToSet]
    simp
  | some fv =>
    unfold computeFunctionsPointsToSet
    by_cases ha : memB fv st.analyzed = true
    · simp only [ha, if_true, Option.some.injEq]
      constructor
      · exact Or.inl
      · rintro (h | rfl)
        · exact h
        · exact memB_iff.1 ha
    · simp only [ha, Bool.false_eq_true, if_false]
      have h1 :
          ∀ (l : List Nat) (s : List Nat × PTSState),
            (l.foldl (pairwiseStep ir fv) s).2.analyzed = s.2.analyzed := by
        intro l
        induction l with
        | nil => intro s; rfl
        | cons x rest ih =>
          intro s
          simp only [List.foldl_cons]
          rw [ih, pairwiseStep_analyzed]
      rw [h1]
      have h2 :
          ∀ (l : List Nat) (s : PTSState),
            (l.foldl addSingletonPointsToSet s).analyzed = s.analyzed :=
        foldl_proj_const PTSState.analyzed _ (fun s b => addSingleton_analyzed s b)
      rw [h2]
      have h3 :
          ∀ (l : List (Nat × Inst)) (s : List Nat × PTSState),
            (l.foldl (processInst ir) s).2.analyzed = s.2.analyzed := by
        intro l
        induction l with
        | nil => intro s; rfl
        | cons x rest ih =>
          intro s
          simp only [List.foldl_cons]
          rw [ih, processInst_snd, storeSeed_analyzed]
      rw [h3]
      show w ∈ insVal st.analyzed fv ↔ _
      rw [mem_insVal]
      constructor
      · rintro (h | rfl)
        · exact Or.inl h
        · exact Or.inr rfl
      · rintro (h | h)
        · exact Or.inl h
        · injection h with h
          exact Or.inr h.symm

/-! ### Preservation through the per-value driver -/

theorem WF_globalUserStep (ir : IRView) (v : Nat) {acc : PTSState} (h : WF acc)
    (u : UserEntry) : WF (globalUserStep ir v acc u) := by
  unfold globalUserStep
  cases u.parent with
  | none => exact h
  | some pf =>
    simp only []
    have h1 := WF_computeFunctions ir h (some pf)
    by_cases hc : (!ir.isFunc v && isInterestingPointer ir u.id) = true
    · rw [if_pos hc]
      exact WF_merge h1 _ _
    · rw [if_neg hc]
      cases u.asStore with
      | none => exact h1
      | some svsp =>
        simp only []
        by_cases hs : isInterestingPointer ir svsp.1 = true
        · rw [if_pos hs]
          exact WF_merge h1 _ _
        · rw [if_neg hs]
          exact h1

theorem globalUserStep_keys_mono (ir : IRView) (v : Nat) {acc : PTSState} {x : Nat}
    (h : (alookup acc.map x).isSome = true) (u : UserEntry) :
    (alookup (globalUserStep ir v acc u).map x).isSome = true := by
  unfold globalUserStep
  cases u.parent with
  | none => exact h
  | some pf =>
    simp only []
    have h1 := computeFunctions_keys_mono ir h (some pf)
    by_cases hc : (!ir.isFunc v && isInterestingPointer ir u.id) = true
    · rw [if_pos hc]
      exact merge_keys_mono _ _ _ _ h1
    · rw [if_neg hc]
      cases u.asStore with
      | none => exact h1
      | some svsp =>
        simp only []
        by_cases hs : isInterestingPointer ir svsp.1 = true
        · rw [if_pos hs]
          exact merge_keys_mono _ _ _ _ h1
        · rw [if_neg hs]
          exact h1

theorem globalUserStep_sameSet (ir : IRView) (v : Nat) {acc : PTSState} {x y : Nat}
    (h : WF acc ∧ sameSet acc x y) (u : UserEntry) :
    WF (globalUserStep ir v acc u) ∧ sameSet (globalUserStep ir v acc u) x y := by
  unfold globalUserStep
  cases u.parent with
  | none => exact h
  | some pf =>
    simp only []
    have h1 := computeFunctions_sameSet ir h (some pf)
    by_cases hc : (!ir.isFunc v && isInterestingPointer ir u.id) = true
    · rw [if_pos hc]
      exact ⟨WF_merge h1.1 _ _, sameSet_merge_mono h1.1 _ _ h1.2⟩
    · rw [if_neg hc]
      cases u.asStore with
      | none => exact h1
      | some svsp =>
        simp only []
        by_cases hs : isInterestingPointer ir svsp.1 = true
        · rw [if_pos hs]
          exact ⟨WF_merge h1.1 _ _, sameSet_merge_mono h1.1 _ _ h1.2⟩
        · rw [if_neg hs]
          exact h1

theorem globalUserStep_analyzed (ir : IRView) (v : Nat) (acc : PTSState)
    (u : UserEntry) (w : Nat) :
    w ∈ (globalUserStep ir v acc u).analyzed ↔
      w ∈ acc.analyzed ∨ u.parent = some w := by
  unfold globalUserStep
  cases hu : u.parent with
  | none => simp
  | some pf =>
    simp only []
    have base :
        ∀ s : PTSState,
          s.analyzed = (computeFunctionsPointsToSet ir acc (some pf)).analyzed →
          (w ∈ s.analyzed ↔ w ∈ acc.analyzed ∨ some pf = some w) := by
      intro s hs
      rw [hs]
      exact analyzed_computeFunctions ir acc (some pf) w
    by_cases hc : (!ir.isFunc v && isInterestingPointer ir u.id) = true
    · rw [if_pos hc]
      rw [base _ (merge_analyzed _ _ _)]
    · rw [if_neg hc]
      cases u.asStore with
      | none => exact base _ rfl
      | some svsp =>
        simp only []
        by_cases hs : isInterestingPointer ir svsp.1 = true
        · rw [if_pos hs]
          rw [base _ (merge_analyzed _ _ _)]
        · rw [if_neg hs]
          exact base _ rfl

theorem analyzed_usersFold (ir : IRView) (v : Nat) :
    ∀ (us : List UserEntry) (s : PTSState) (w : Nat),
      w ∈ (us.foldl (globalUserStep ir v) s).analyzed ↔
        w ∈ s.analyzed ∨ ∃ u ∈ us, u.parent = some w := by
  intro us
  induction us with
  | nil => simp
  | cons u rest ih =>
    intro s w
    simp only [List.foldl_cons]
    rw [ih, globalUserStep_analyzed]
    constructor
    · rintro ((hs | hu) | ⟨x, hx, hp⟩)
      · exact Or.inl hs
      · exact Or.inr ⟨u, List.mem_cons_self u rest, hu⟩
      · exact Or.inr ⟨x, List.mem_cons_of_mem _ hx, hp⟩
    · rintro (hs | ⟨x, hx, hp⟩)
      · exact Or.inl (Or.inl hs)
      · rcases List.mem_cons.1 hx with rfl | hx
        · exact Or.inl (Or.inr hp)
        · exact Or.inr ⟨x, hx, hp⟩

theorem WF_computeValues (ir : IRView) {st : PTSState} (hWF : WF st) (v : Nat) :
    WF (computeValuesPointsToSet ir st v) := by
  unfold computeValuesPointsToSet
  by_cases hint : isInterestingPointer ir v = true
  · simp only [hint, Bool.not_true, Bool.false_eq_true, if_false]
    by_cases hg : (ir.isGlobalVar v || ir.isFunc v) = true
    · rw [if_pos hg]
      exact foldl_pres WF _ (fun s b hs => WF_globalUserStep ir v hs b) _ _
        (WF_addSingleton hWF v)
    · rw [if_neg hg]
      exact WF_computeFunctions ir (WF_addSingleton hWF v) _
  · simp only [Bool.not_eq_true] at hint
    simp [hint]
    exact hWF

theorem computeValues_keys_mono (ir : IRView) {st : PTSState} {u : Nat}
    (h : (alookup st.map u).isSome = true) (v : Nat) :
    (alookup (computeValuesPointsToSet ir st v).map u).isSome = true := by
  unfold computeValuesPointsToSet
  by_cases hint : isInterestingPointer ir v = true
  · simp only [hint, Bool.not_true, Bool.false_eq_true, if_false]
    by_cases hg : (ir.isGlobalVar v || ir.isFunc v) = true
    · rw [if_pos hg]
      exact foldl_pres (fun s => (alookup s.map u).isSome = true) _
        (fun s b hs => globalUserStep_keys_mono ir v hs b) _ _
        (addSingleton_keys_mono st v u h)
    · rw [if_neg hg]
      exact computeFunctions_keys_mono ir (addSingleton_keys_mono st v u h) _
  · simp only [Bool.not_eq_true] at hint
    simp [hint]
    exact h

theorem computeValues_key (ir : IRView) (st : PTSState) {v : Nat}
    (hint : isInterestingPointer ir v = true) :
    (alookup (computeValuesPointsToSet ir st v).map v).isSome = true := by
  unfold computeValuesPointsToSet
  simp only [hint, Bool.not_true, Bool.false_eq_true, if_false]
  by_cases hg : (ir.isGlobalVar v || ir.isFunc v) = true
  · rw [if_pos hg]
    exact foldl_pres (fun s => (alookup s.map v).isSome = true) _
      (fun s b hs => globalUserStep_keys_mono ir v hs b) _ _
      (addSingleton_key st v)
  · rw [if_neg hg]
    exact computeFunctions_keys_mono ir (addSingleton_key st v) _

theorem computeValues_sameSet (ir : IRView) {st : PTSState} {x y : Nat}
    (h : WF st ∧ sameSet st x y) (v : Nat) :
    WF (computeValuesPointsToSet ir st v) ∧
      sameSet (computeValuesPointsToSet ir st v) x y := by
  unfold computeValuesPointsToSet
  by_cases hint : isInterestingPointer ir v = true
  · simp only [hint, Bool.not_true, Bool.false_eq_true, if_false]
    by_cases hg : (ir.isGlobalVar v || ir.isFunc v) = true
    · rw [if_pos hg]
      exact foldl_pres (fun s => WF s ∧ sameSet s x y) _
        (fun s b hs => globalUserStep_sameSet ir v hs b) _ _
        ⟨WF_addSingleton h.1 v, sameSet_addSingleton_mono h.2 v⟩
    · rw [if_neg hg]
      exact computeFunctions_sameSet ir
        ⟨WF_addSingleton h.1 v, sameSet_addSingleton_mono h.2 v⟩ _
  · simp only [Bool.not_eq_true] at hint
    simp [hint]
    exact h

theorem analyzed_computeValues (ir : IRView) (st : PTSState) (v w : Nat) :
    w ∈ (computeValuesPointsToSet ir st v).analyzed ↔
      w ∈ st.analyzed ∨
        (isInterestingPointer ir v = true ∧
          (((ir.isGlobalVar v || ir.isFunc v) = true ∧
              ∃ u ∈ ir.usersOf v, u.parent = some w) ∨
            ((ir.isGlobalVar v || ir.isFunc v) = false ∧
              ir.retrieveFunc v = some w))) := by
  unfold computeValuesPointsToSet
  by_cases hint : isInterestingPointer ir v = true
  · simp only [hint, Bool.not_true, Bool.false_eq_true, if_false, true_and]
    by_cases hg : (ir.isGlobalVar v || ir.isFunc v) = true
    · rw [if_pos hg]
      rw [analyzed_usersFold]
      rw [show (addSingletonPointsToSet st v).analyzed = st.analyzed from
        addSingleton_analyzed st v]
      simp [hg]
    · rw [if_neg hg]
      simp only [Bool.not_eq_true] at hg
      constructor
      · intro hmem
        rcases (analyzed_computeFunctions ir _ _ w).1 hmem with hs | hr
        · exact Or.inl (by rwa [addSingleton_analyzed] at hs)
        · exact Or.inr (Or.inr ⟨hg, hr⟩)
      · intro hmem
        apply (analyzed_computeFunctions ir _ _ w).2
        rcases hmem with hs | hd
        · exact Or.inl (by rwa [addSingleton_analyzed])
        · rcases hd with ⟨hgt, _⟩ | ⟨_, hr⟩
          · rw [hg] at hgt
            cases hgt
          · exact Or.inr hr
  · simp only [Bool.not_eq_true] at hint
    simp [hint]

/-! ### Concrete states and IR views used by counterexamples and witnesses -/

/-- The empty engine state a freshly constructed engine starts from. -/
def emptyState : PTSState := { map := [], sets := [], next := 0, analyzed := [] }

/-- An engine holding the two singleton classes `{1}` and `{2}`. -/
def thisEngine : PTSState :=
  { map := [(1, 0), (2, 1)], sets := [(0, [1]), (1, [2])], next := 2, analyzed := [] }

/-- An engine in which values `1` and `2` share one class `{1, 2}`. -/
def otherEngine : PTSState :=
  { map := [(1, 0), (2, 0)], sets := [(0, [1, 2])], next := 1, analyzed := [] }

/-- A module with three globals and no functions; its canonical traversal
has exactly three values. -/
def irThreeGlobals : IRView :=
  { isPointerTy := fun _ => true, isFunc := fun _ => false,
    isGlobalVar := fun _ => true, isNullOrUndef := fun _ => false,
    asBitcastCEOp := fun _ => none, globals := [7, 8, 9], funcs := [],
    usersOf := fun _ => [], retrieveFunc := fun _ => none,
    oracle := fun _ _ _ => .noAlias }

/-- A module in which only value `5` is a pointer; `5` is function-local
but its enclosing function cannot be retrieved (a vtable-like value). -/
def irLoneValue : IRView :=
  { isPointerTy := fun v => v == 5, isFunc := fun _ => false,
    isGlobalVar := fun _ => false, isNullOrUndef := fun _ => false,
    asBitcastCEOp := fun _ => none, globals := [], funcs := [],
    usersOf := fun _ => [], retrieveFunc := fun _ => none,
    oracle := fun _ _ _ => .noAlias }

/-! ### Claim theorems -/

/-- Claim C1 (code bug): `mergeWith` is supposed to rebind every element of
an absorbed set of the other engine to the merged set, making the merged
equivalence classes at least as coarse as both inputs.  The rebind loop
uses `PointsToSets.insert`, which does not overwrite an existing binding:
with this engine holding singletons `{1}` and `{2}` and the other engine
holding the shared class `{1, 2}`, after `mergeWith` the value `2` is
still bound to its old singleton set, so `1 ~ 2` holds in the other engine
but not in the merged engine. -/
theorem c1_mergeWith_rebind_failure :
    WFb thisEngine = true ∧ WFb otherEngine = true ∧
    sameSet otherEngine 1 2 ∧
    alookup (mergeWith thisEngine otherEngine).map 2 = some 1 ∧
    getSet (mergeWith thisEngine otherEngine) 1 = [2] ∧
    ¬sameSet (mergeWith thisEngine otherEngine) 1 2 := by
  refine ⟨by decide, by decide, ⟨0, by decide, by decide⟩, by decide, by decide, ?_⟩
  rintro ⟨h, hl1, hl2⟩
  have e1 : alookup (mergeWith thisEngine otherEngine).map 1 = some 0 := by decide
  have e2 : alookup (mergeWith thisEngine otherEngine).map 2 = some 1 := by decide
  rw [e1] at hl1
  rw [e2] at hl2
  injection hl1 with hl1
  injection hl2 with hl2
  exact absurd (hl1.trans hl2.symm) (by decide)

/-- Claim C5: under the precondition that both values are bound (and the
state satisfies the documented invariants), `mergePointsToSets` is a no-op
when the two set handles coincide; otherwise it inserts all members of the
smaller set into the larger set, rebinds the map entry of every member of
the smaller set to the larger set's handle, leaves all other bindings
unchanged, and empties the smaller set. -/
theorem c5_merge_spec (st : PTSState) (v1 v2 a b : Nat) (hWF : WF st)
    (h1 : alookup st.map v1 = some a) (h2 : alookup st.map v2 = some b) :
    (a = b → mergePointsToSets st v1 v2 = st) ∧
    (a ≠ b →
      (getSet (mergePointsToSets st v1 v2)
          (if (getSet st a).length ≤ (getSet st b).length then b else a) =
        insAll
          (getSet st (if (getSet st a).length ≤ (getSet st b).length then b else a))
          (getSet st (if (getSet st a).length ≤ (getSet st b).length then a else b))) ∧
      (∀ x ∈ getSet st (if (getSet st a).length ≤ (getSet st b).length then a else b),
        alookup (mergePointsToSets st v1 v2).map x =
          some (if (getSet st a).length ≤ (getSet st b).length then b else a)) ∧
      (∀ x,
        x ∉ getSet st (if (getSet st a).length ≤ (getSet st b).length then a else b) →
        alookup (mergePointsToSets st v1 v2).map x = alookup st.map x) ∧
      getSet (mergePointsToSets st v1 v2)
        (if (getSet st a).length ≤ (getSet st b).length then a else b) = []) := by
  constructor
  · intro hab
    exact mergePointsToSets_noop hWF h1 h2 hab
  · intro hab
    obtain ⟨hmap, hgL, hgS, _, _, _, _⟩ := mergeChar hWF h1 h2 hab rfl rfl
    refine ⟨hgL, ?_, ?_, hgS⟩
    · intro x hx
      rw [hmap x, if_pos hx]
    · intro x hx
      rw [hmap x, if_neg hx]

/-- Witness for C5 at the concrete state with classes `{1}` and `{2}`:
the hypotheses hold and merging `1` with `2` moves the smaller set into
the larger one. -/
theorem c5_merge_witness :
    WFb thisEngine = true ∧ alookup thisEngine.map 1 = some 0 ∧
    alookup thisEngine.map 2 = some 1 ∧
    getSet (mergePointsToSets thisEngine 1 2)
        (if (getSet thisEngine 0).length ≤ (getSet thisEngine 1).length then 1 else 0) =
      insAll
        (getSet thisEngine
          (if (getSet thisEngine 0).length ≤ (getSet thisEngine 1).length then 1 else 0))
        (getSet thisEngine
          (if (getSet thisEngine 0).length ≤ (getSet thisEngine 1).length then 0 else 1)) :=
  ⟨by decide, by decide, by decide,
    ((c5_merge_spec thisEngine 1 2 0 1 (WF_of_WFb (by decide)) (by decide)
      (by decide)).2 (by decide)).1⟩

/-- Claim C8 (code bug): during `load`, an id read from the file that is
out of range of the id table reconstructed from the IR is indexed into
`IdToValueMap` with no bounds check; there is no corrupt-file detection and
no orderly abort, only an out-of-range `std::vector::operator[]` access
(undefined behavior, modelled as the `none` outcome).  The IR traversal
below has three values, and the file holds the id `999`. -/
theorem c8_load_out_of_range :
    (traverseIRDB irThreeGlobals).length = 3 ∧
    loadFile irThreeGlobals { analyzedIds := [], setIdLines := [[999]] } = none := by
  decide

/-- Claim C9: `computeFunctionsPointsToSet` on a null function pointer
returns immediately without modifying the state, so
`computeValuesPointsToSet` on an interesting non-global value whose
enclosing function cannot be retrieved terminates normally, leaving the
value bound to its fresh singleton set. -/
theorem c9_null_function_safe (ir : IRView) (st : PTSState) (v : Nat)
    (hint : isInterestingPointer ir v = true)
    (hng : ir.isGlobalVar v = false) (hnf : ir.isFunc v = false)
    (hrf : ir.retrieveFunc v = none)
    (habs : alookup st.map v = none) :
    (∀ s : PTSState, computeFunctionsPointsToSet ir s none = s) ∧
    alookup (computeValuesPointsToSet ir st v).map v = some st.next ∧
    getSet (computeValuesPointsToSet ir st v) st.next = [v] := by
  have hred : computeValuesPointsToSet ir st v = addSingletonPointsToSet st v := by
    unfold computeValuesPointsToSet
    simp [hint, hng, hnf, hrf, computeFunctionsPointsToSet]
  refine ⟨fun s => rfl, ?_, ?_⟩
  · rw [hred, addSingleton_lookup_absent habs, if_pos rfl]
  · rw [hred, addSingleton_getSet_absent habs, if_pos rfl]

/-- Witness for C9 at a concrete lone interesting value `5` in the empty
engine. -/
theorem c9_null_function_witness :
    (isInterestingPointer irLoneValue 5 = true ∧
      irLoneValue.isGlobalVar 5 = false ∧ irLoneValue.isFunc 5 = false ∧
      irLoneValue.retrieveFunc 5 = none ∧ alookup emptyState.map 5 = none) ∧
    ((∀ s : PTSState, computeFunctionsPointsToSet irLoneValue s none = s) ∧
      alookup (computeValuesPointsToSet irLoneValue emptyState 5).map 5 =
        some emptyState.next ∧
      getSet (computeValuesPointsToSet irLoneValue emptyState 5) emptyState.next =
        [5]) :=
  ⟨⟨by decide, by decide, by decide, by decide, by decide⟩,
    c9_null_function_safe irLoneValue emptyState 5 (by decide) (by decide)
      (by decide) (by decide) (by decide)⟩

/-- Claim C10: `getPointsToSet` on a value that is not an interesting
pointer returns a freshly allocated empty set on every call and never
inserts the value into the map; two consecutive calls return distinct,
not reference-equal, set handles. -/
theorem c10_uninteresting_fresh_empty (ir : IRView) (st : PTSState) (v : Nat)
    (h : isInterestingPointer ir v = false) :
    (getPointsToSet ir st v).1.map = st.map ∧
    getSet (getPointsToSet ir st v).1 (getPointsToSet ir st v).2 = [] ∧
    (getPointsToSet ir (getPointsToSet ir st v).1 v).1.map = st.map ∧
    getSet (getPointsToSet ir (getPointsToSet ir st v).1 v).1
      (getPointsToSet ir (getPointsToSet ir st v).1 v).2 = [] ∧
    (getPointsToSet ir st v).2 ≠ (getPointsToSet ir (getPointsToSet ir st v).1 v).2 := by
  have hred : ∀ s : PTSState, getPointsToSet ir s v =
      ({ s with sets := setKV s.sets s.next [], next := s.next + 1 }, s.next) := by
    intro s
    unfold getPointsToSet
    simp [h]
  simp only [hred]
  refine ⟨trivial, ?_, trivial, ?_, ?_⟩
  · simp [getSet, alookup_setKV]
  · simp [getSet, alookup_setKV]
  · omega

/-- Witness for C10 at the uninteresting value `3` (not pointer-typed in
`irLoneValue`) in the empty engine. -/
theorem c10_uninteresting_witness :
    isInterestingPointer irLoneValue 3 = false ∧
    ((getPointsToSet irLoneValue emptyState 3).1.map = emptyState.map ∧
      getSet (getPointsToSet irLoneValue emptyState 3).1
        (getPointsToSet irLoneValue emptyState 3).2 = [] ∧
      (getPointsToSet irLoneValue (getPointsToSet irLoneValue emptyState 3).1 3).1.map =
        emptyState.map ∧
      getSet (getPointsToSet irLoneValue (getPointsToSet irLoneValue emptyState 3).1 3).1
        (getPointsToSet irLoneValue (getPointsToSet irLoneValue emptyState 3).1 3).2 =
        [] ∧
      (getPointsToSet irLoneValue emptyState 3).2 ≠
        (getPointsToSet irLoneValue (getPointsToSet irLoneValue emptyState 3).1 3).2) :=
  ⟨by decide, c10_uninteresting_fresh_empty irLoneValue emptyState 3 (by decide)⟩

/-- Claim C6: `alias` returns `NoAlias` whenever either argument is not an
interesting pointer; otherwise, after driving computation for both values,
it returns `MustAlias` if and only if `v2` lies in `v1`'s set --
equivalently, iff the two values are in the same set of the driven state --
and `NoAlias` otherwise.  No other alias result is ever returned. -/
theorem c6_alias_spec (ir : IRView) (st : PTSState) (v1 v2 : Nat) (hWF : WF st) :
    ((aliasQuery ir st v1 v2).2 = AliasResult.noAlias ∨
      (aliasQuery ir st v1 v2).2 = AliasResult.mustAlias) ∧
    ((isInterestingPointer ir v1 = false ∨ isInterestingPointer ir v2 = false) →
      (aliasQuery ir st v1 v2).2 = AliasResult.noAlias) ∧
    (isInterestingPointer ir v1 = true → isInterestingPointer ir v2 = true →
      ((aliasQuery ir st v1 v2).2 = AliasResult.mustAlias ↔
        sameSet
          (computeValuesPointsToSet ir (computeValuesPointsToSet ir st v1) v2)
          v1 v2)) := by
  by_cases hint1 : isInterestingPointer ir v1 = true
  · by_cases hint2 : isInterestingPointer ir v2 = true
    · have hWF2 : WF (computeValuesPointsToSet ir
          (computeValuesPointsToSet ir st v1) v2) :=
        WF_computeValues ir (WF_computeValues ir hWF v1) v2
      have hkey : (alookup (computeValuesPointsToSet ir
          (computeValuesPointsToSet ir st v1) v2).map v1).isSome = true :=
        computeValues_keys_mono ir (computeValues_key ir st hint1) v2
      obtain ⟨h1, hh1⟩ := Option.isSome_iff_exists.1 hkey
      have hq : (aliasQuery ir st v1 v2).2 =
          if memB v2 (getSet (computeValuesPointsToSet ir
              (computeValuesPointsToSet ir st v1) v2) h1) = true
          then AliasResult.mustAlias else AliasResult.noAlias := by
        unfold aliasQuery
        simp only [hint1, hint2, Bool.not_true, Bool.or_self, Bool.false_eq_true,
          if_false, hh1]
      rw [hq]
      refine ⟨?_, ?_, fun _ _ => ?_⟩
      · by_cases hm : memB v2 (getSet (computeValuesPointsToSet ir
            (computeValuesPointsToSet ir st v1) v2) h1) = true
        · rw [if_pos hm]
          exact Or.inr rfl
        · rw [if_neg hm]
          exact Or.inl rfl
      · rintro (hf | hf)
        · simp [hint1] at hf
        · simp [hint2] at hf
      · constructor
        · intro hmust
          by_cases hm : memB v2 (getSet (computeValuesPointsToSet ir
              (computeValuesPointsToSet ir st v1) v2) h1) = true
          · exact ⟨h1, hh1, hWF2.canon v1 h1 v2 hh1 (memB_iff.1 hm)⟩
          · rw [if_neg hm] at hmust
            exact AliasResult.noConfusion hmust
        · rintro ⟨h, ha1, ha2⟩
          rw [hh1] at ha1
          injection ha1 with ha1
          subst ha1
          rw [if_pos (memB_iff.2 (hWF2.memOwn v2 h1 ha2))]
    · have hi2 : isInterestingPointer ir v2 = false := by
        simpa using hint2
      have hq : (aliasQuery ir st v1 v2).2 = AliasResult.noAlias := by
        unfold aliasQuery
        simp [hi2]
      rw [hq]
      exact ⟨Or.inl rfl, fun _ => rfl, fun _ h2t => absurd h2t hint2⟩
  · have hi1 : isInterestingPointer ir v1 = false := by
      simpa using hint1
    have hq : (aliasQuery ir st v1 v2).2 = AliasResult.noAlias := by
      unfold aliasQuery
      simp [hi1]
    rw [hq]
    exact ⟨Or.inl rfl, fun _ => rfl, fun h1t _ => absurd h1t hint1⟩

/-- A function body with two pointer-typed instructions `5` and `6`. -/
def fnTwoLocals : Func :=
  { args := [], insts := [(5, .other []), (6, .other [])], isDeclaration := false }

/-- A module for the C6 witness: two interesting pointers `5` and `6`
local to function `2`, whose oracle keeps them apart. -/
def irTwoLocals : IRView :=
  { isPointerTy := fun v => v == 5 || v == 6, isFunc := fun _ => false,
    isGlobalVar := fun _ => false, isNullOrUndef := fun _ => false,
    asBitcastCEOp := fun _ => none, globals := [],
    funcs := [(2, fnTwoLocals)],
    usersOf := fun _ => [],
    retrieveFunc := fun v => if v == 5 || v == 6 then some 2 else none,
    oracle := fun _ _ _ => .noAlias }

/-- Witness for C6 in the empty engine with two local pointers. -/
theorem c6_alias_witness :
    WFb emptyState = true ∧
    (((aliasQuery irTwoLocals emptyState 5 6).2 = AliasResult.noAlias ∨
        (aliasQuery irTwoLocals emptyState 5 6).2 = AliasResult.mustAlias) ∧
      ((isInterestingPointer irTwoLocals 5 = false ∨
          isInterestingPointer irTwoLocals 6 = false) →
        (aliasQuery irTwoLocals emptyState 5 6).2 = AliasResult.noAlias) ∧
      (isInterestingPointer irTwoLocals 5 = true →
        isInterestingPointer irTwoLocals 6 = true →
        ((aliasQuery irTwoLocals emptyState 5 6).2 = AliasResult.mustAlias ↔
          sameSet
            (computeValuesPointsToSet irTwoLocals
              (computeValuesPointsToSet irTwoLocals emptyState 5) 6) 5 6))) :=
  ⟨by decide, c6_alias_spec irTwoLocals emptyState 5 6 (WF_of_WFb (by decide))⟩

/-- The store-of-function seeding establishes a shared class for the
stored function and the pointer operand. -/
theorem storeSeed_creates {ir : IRView} {s : PTSState} {svo spo : Nat} (h : WF s)
    (hp : ir.isPointerTy svo = true) (hf : ir.isFunc svo = true) :
    WF (storeSeedState ir s (.store svo spo)) ∧
      sameSet (storeSeedState ir s (.store svo spo)) svo spo := by
  have hw0 := WF_addSingleton (WF_addSingleton h svo) spo
  have hkv : (alookup (addSingletonPointsToSet
      (addSingletonPointsToSet s svo) spo).map svo).isSome = true :=
    addSingleton_keys_mono _ _ _ (addSingleton_key s svo)
  have hkp : (alookup (addSingletonPointsToSet
      (addSingletonPointsToSet s svo) spo).map spo).isSome = true :=
    addSingleton_key _ spo
  obtain ⟨a, ha⟩ := Option.isSome_iff_exists.1 hkv
  obtain ⟨b, hb⟩ := Option.isSome_iff_exists.1 hkp
  have h1 := WF_merge hw0 svo spo
  have hss1 := merge_sameSet hw0 ha hb
  cases hce : ir.asBitcastCEOp svo with
  | none =>
    unfold storeSeedState
    simp only [hp, if_true, hf, hce]
    exact ⟨h1, hss1⟩
  | some rhs =>
    unfold storeSeedState
    simp only [hp, if_true, hf, hce]
    have hw2 := WF_addSingleton (WF_addSingleton (WF_addSingleton h1 rhs) svo) spo
    have hw3 := WF_merge hw2 rhs spo
    refine ⟨WF_merge hw3 svo spo, ?_⟩
    exact sameSet_merge_mono hw3 svo spo (sameSet_merge_mono hw2 rhs spo
      (sameSet_addSingleton_mono (sameSet_addSingleton_mono
        (sameSet_addSingleton_mono hss1 rhs) svo) spo))

/-- Claim C7: when per-function analysis encounters a store instruction
whose stored value is a (pointer-typed) function, it seeds singleton sets
for the stored value and the pointer operand and merges them, so that
after `computeFunctionsPointsToSet` returns the function and the slot
share one points-to set containing both, with no input from the alias
oracle needed (the seeding happens before and independently of the
pairwise oracle loop, and later merges only coarsen classes). -/
theorem c7_function_store_merge (ir : IRView) (st : PTSState) (f : Nat) (fn : Func)
    (iid svo spo : Nat) (hWF : WF st)
    (hna : memB f st.analyzed = false)
    (hfn : alookup ir.funcs f = some fn)
    (hin : (iid, Inst.store svo spo) ∈ fn.insts)
    (hptr : ir.isPointerTy svo = true) (hfunc : ir.isFunc svo = true) :
    ∃ h, alookup (computeFunctionsPointsToSet ir st (some f)).map svo = some h ∧
      alookup (computeFunctionsPointsToSet ir st (some f)).map spo = some h ∧
      svo ∈ getSet (computeFunctionsPointsToSet ir st (some f)) h ∧
      spo ∈ getSet (computeFunctionsPointsToSet ir st (some f)) h := by
  have hgoal : WF (computeFunctionsPointsToSet ir st (some f)) ∧
      sameSet (computeFunctionsPointsToSet ir st (some f)) svo spo := by
    unfold computeFunctionsPointsToSet
    simp only [hna, Bool.false_eq_true, if_false, hfn, Option.getD_some]
    obtain ⟨l1, l2, hsplit⟩ := List.append_of_mem hin
    rw [hsplit, List.foldl_append, List.foldl_cons]
    refine foldl_pres_snd (fun s => WF s ∧ sameSet s svo spo) _
      (fun s b hs => pairwiseStep_sameSet ir f s b hs) _ _ ?_
    refine foldl_pres (fun s => WF s ∧ sameSet s svo spo) _
      (fun s b hs => ⟨WF_addSingleton hs.1 b, sameSet_addSingleton_mono hs.2 b⟩) _ _ ?_
    refine foldl_pres_snd (fun s => WF s ∧ sameSet s svo spo) _
      (fun s b hs => by rw [processInst_snd]; exact storeSeed_sameSet hs b.2) _ _ ?_
    rw [processInst_snd]
    exact storeSeed_creates
      (foldl_pres_snd WF _
        (fun s b hs => by rw [processInst_snd]; exact WF_storeSeed hs b.2) l1 _
        (WF_analyzed_update hWF _))
      hptr hfunc
  obtain ⟨h, hsv, hsp⟩ := hgoal.2
  exact ⟨h, hsv, hsp, hgoal.1.memOwn svo h hsv, hgoal.1.memOwn spo h hsp⟩

/-- A function body that stores the function value `4` into slot `5`. -/
def fnFuncStore : Func :=
  { args := [], insts := [(5, .other []), (3, .store 4 5)], isDeclaration := false }

/-- A module for the C7 witness: function `2` stores the function value
`4` (@foo) into the slot `5` (%slot); the oracle never reports aliases. -/
def irFuncStore : IRView :=
  { isPointerTy := fun v => v == 4 || v == 5, isFunc := fun v => v == 4,
    isGlobalVar := fun _ => false, isNullOrUndef := fun _ => false,
    asBitcastCEOp := fun _ => none, globals := [],
    funcs := [(2, fnFuncStore)],
    usersOf := fun _ => [],
    retrieveFunc := fun v => if v == 5 then some 2 else none,
    oracle := fun _ _ _ => .noAlias }

/-- Witness for C7: analyzing function `2` of `irFuncStore` from the empty
engine leaves `@foo = 4` and `%slot = 5` sharing one set. -/
theorem c7_function_store_witness :
    (WFb emptyState = true ∧ memB 2 emptyState.analyzed = false ∧
      alookup irFuncStore.funcs 2 = some fnFuncStore ∧
      (3, Inst.store 4 5) ∈ fnFuncStore.insts ∧
      irFuncStore.isPointerTy 4 = true ∧ irFuncStore.isFunc 4 = true) ∧
    (∃ h, alookup (computeFunctionsPointsToSet irFuncStore emptyState (some 2)).map 4 =
        some h ∧
      alookup (computeFunctionsPointsToSet irFuncStore emptyState (some 2)).map 5 =
        some h ∧
      4 ∈ getSet (computeFunctionsPointsToSet irFuncStore emptyState (some 2)) h ∧
      5 ∈ getSet (computeFunctionsPointsToSet irFuncStore emptyState (some 2)) h) :=
  ⟨⟨by decide, by decide, by decide, by decide, by decide, by decide⟩,
    c7_function_store_merge irFuncStore emptyState 2 fnFuncStore
      3 4 5 (WF_of_WFb (by decide)) (by decide) (by decide)
      (by decide) (by decide) (by decide)⟩

/-! ### Which functions the constructor analyzes (claim C3) -/

theorem computeFunctions_analyzed_noop (ir : IRView) (st : PTSState) (f : Nat)
    (h : memB f st.analyzed = true) :
    computeFunctionsPointsToSet ir st (some f) = st := by
  unfold computeFunctionsPointsToSet
  simp [h]

theorem analyzed_valuesFold_globals (ir : IRView) :
    ∀ (vs : List Nat) (s : PTSState) (w : Nat),
      (∀ v ∈ vs, (ir.isGlobalVar v || ir.isFunc v) = true) →
      (w ∈ (vs.foldl (fun acc g => computeValuesPointsToSet ir acc g) s).analyzed ↔
        w ∈ s.analyzed ∨ ∃ v ∈ vs, isInterestingPointer ir v = true ∧
          ∃ u ∈ ir.usersOf v, u.parent = some w) := by
  intro vs
  induction vs with
  | nil => simp
  | cons x rest ih =>
    intro s w hco
    simp only [List.foldl_cons]
    rw [ih _ _ (fun v hv => hco v (List.mem_cons_of_mem _ hv))]
    rw [analyzed_computeValues]
    have hx := hco x (List.mem_cons_self x rest)
    constructor
    · rintro ((hs | ⟨hint, hd⟩) | ⟨v, hv, hint, hu⟩)
      · exact Or.inl hs
      · rcases hd with ⟨_, hu⟩ | ⟨hgf, _⟩
        · exact Or.inr ⟨x, List.mem_cons_self x rest, hint, hu⟩
        · rw [hx] at hgf
          cases hgf
      · exact Or.inr ⟨v, List.mem_cons_of_mem _ hv, hint, hu⟩
    · rintro (hs | ⟨v, hv, hint, hu⟩)
      · exact Or.inl (Or.inl hs)
      · rcases List.mem_cons.1 hv with rfl | hv
        · exact Or.inl (Or.inr ⟨hint, Or.inl ⟨hx, hu⟩⟩)
        · exact Or.inr ⟨v, hv, hint, hu⟩

theorem analyzed_valuesFold_funcs (ir : IRView) :
    ∀ (ps : List (Nat × Func)) (s : PTSState) (w : Nat),
      (∀ p ∈ ps, (ir.isGlobalVar p.1 || ir.isFunc p.1) = true) →
      (w ∈ (ps.foldl (fun acc p => computeValuesPointsToSet ir acc p.1) s).analyzed ↔
        w ∈ s.analyzed ∨ ∃ p ∈ ps, isInterestingPointer ir p.1 = true ∧
          ∃ u ∈ ir.usersOf p.1, u.parent = some w) := by
  intro ps
  induction ps with
  | nil => simp
  | cons x rest ih =>
    intro s w hco
    simp only [List.foldl_cons]
    rw [ih _ _ (fun p hp => hco p (List.mem_cons_of_mem _ hp))]
    rw [analyzed_computeValues]
    have hx := hco x (List.mem_cons_self x rest)
    constructor
    · rintro ((hs | ⟨hint, hd⟩) | ⟨p, hp, hint, hu⟩)
      · exact Or.inl hs
      · rcases hd with ⟨_, hu⟩ | ⟨hgf, _⟩
        · exact Or.inr ⟨x, List.mem_cons_self x rest, hint, hu⟩
        · rw [hx] at hgf
          cases hgf
      · exact Or.inr ⟨p, List.mem_cons_of_mem _ hp, hint, hu⟩
    · rintro (hs | ⟨p, hp, hint, hu⟩)
      · exact Or.inl (Or.inl hs)
      · rcases List.mem_cons.1 hp with rfl | hp
        · exact Or.inl (Or.inr ⟨hint, Or.inl ⟨hx, hu⟩⟩)
        · exact Or.inr ⟨p, hp, hint, hu⟩

theorem analyzed_mem_eagerFold (ir : IRView) :
    ∀ (ps : List (Nat × Func)) (s : PTSState) (p : Nat × Func),
      p ∈ ps → p.2.isDeclaration = false →
      p.1 ∈ (ps.foldl
        (fun acc q =>
          if q.2.isDeclaration then acc
          else computeFunctionsPointsToSet ir acc (some q.1)) s).analyzed := by
  intro ps
  induction ps with
  | nil =>
    intro s p hp
    simp at hp
  | cons q rest ih =>
    intro s p hp hdecl
    simp only [List.foldl_cons]
    rcases List.mem_cons.1 hp with rfl | hp
    · have hstep : p.1 ∈ (if p.2.isDeclaration then s
          else computeFunctionsPointsToSet ir s (some p.1)).analyzed := by
        simp only [hdecl, Bool.false_eq_true, if_false]
        exact (analyzed_computeFunctions ir s (some p.1) p.1).2 (Or.inr rfl)
      refine foldl_pres (fun s' => p.1 ∈ s'.analyzed) _ ?_ rest _ hstep
      intro s' b hs'
      cases hd : b.2.isDeclaration with
      | true => simpa [hd] using hs'
      | false =>
        simp only [hd, Bool.false_eq_true, if_false]
        exact (analyzed_computeFunctions ir s' (some b.1) p.1).2 (Or.inl hs')
    · exact ih _ p hp hdecl

/-- Claim C3, amended: with `useLazyEvaluation = false`, every
non-declaration function is analyzed at construction.  With
`useLazyEvaluation = true`, the eager per-function loop is skipped, but
the constructor still drives the per-value computation over all globals
and functions, so exactly the functions containing an instruction user of
an interesting global object are analyzed during construction;
per-function analysis of an already analyzed function is a no-op, so any
other function is analyzed only by the first query that reaches it. -/
theorem c3_construction_amended (ir : IRView)
    (hg : ∀ g ∈ ir.globals, ir.isGlobalVar g = true)
    (hf : ∀ p ∈ ir.funcs, ir.isFunc p.1 = true) :
    (∀ p ∈ ir.funcs, p.2.isDeclaration = false →
      p.1 ∈ (constructState ir false).analyzed) ∧
    (∀ w, w ∈ (constructState ir true).analyzed ↔
      ((∃ v ∈ ir.globals, isInterestingPointer ir v = true ∧
          ∃ u ∈ ir.usersOf v, u.parent = some w) ∨
        (∃ p ∈ ir.funcs, isInterestingPointer ir p.1 = true ∧
          ∃ u ∈ ir.usersOf p.1, u.parent = some w))) ∧
    (∀ (st : PTSState) (f : Nat), memB f st.analyzed = true →
      computeFunctionsPointsToSet ir st (some f) = st) := by
  refine ⟨?_, ?_, ?_⟩
  · intro p hp hdecl
    unfold constructState
    simp only [Bool.not_false, if_true]
    exact analyzed_mem_eagerFold ir ir.funcs _ p hp hdecl
  · intro w
    unfold constructState
    simp only [Bool.not_true, Bool.false_eq_true, if_false]
    rw [analyzed_valuesFold_funcs ir ir.funcs _ w (fun p hp => by simp [hf p hp])]
    rw [analyzed_valuesFold_globals ir ir.globals _ w (fun v hv => by simp [hg v hv])]
    simp only [List.not_mem_nil, false_or]
  · intro st f h
    exact computeFunctions_analyzed_noop ir st f h

/-- An empty non-declaration function body. -/
def fnEmpty : Func := { args := [], insts := [], isDeclaration := false }

/-- A module with one interesting global `1` used by an instruction `5`
residing in the non-declaration function `2`. -/
def irGlobalUser : IRView :=
  { isPointerTy := fun v => v == 1 || v == 2, isFunc := fun v => v == 2,
    isGlobalVar := fun v => v == 1, isNullOrUndef := fun _ => false,
    asBitcastCEOp := fun _ => none, globals := [1],
    funcs := [(2, fnEmpty)],
    usersOf := fun v =>
      if v == 1 then [{ id := 5, parent := some 2, asStore := none }] else [],
    retrieveFunc := fun _ => none, oracle := fun _ _ _ => .noAlias }

/-- Claim C3 counterexample: constructed with `useLazyEvaluation = true`
over a module whose global `1` is used by an instruction of function `2`,
the engine analyzes function `2` during construction -- the claim that no
function is analyzed during lazy construction is false. -/
theorem c3_lazy_construction_counterexample :
    (constructState irGlobalUser true).analyzed = [2] ∧
    2 ∈ (constructState irGlobalUser true).analyzed := by
  decide

/-- Witness for the amended C3 at the concrete module `irGlobalUser`:
the coherence hypotheses hold and the eager constructor analyzes the
non-declaration function `2`. -/
theorem c3_construction_witness :
    (∀ g ∈ irGlobalUser.globals, irGlobalUser.isGlobalVar g = true) ∧
    (∀ p ∈ irGlobalUser.funcs, irGlobalUser.isFunc p.1 = true) ∧
    2 ∈ (constructState irGlobalUser false).analyzed :=
  ⟨by decide, by decide,
    (c3_construction_amended irGlobalUser (by decide) (by decide)).1
      (2, fnEmpty) (by decide) (by decide)⟩

/-! ### Pointer-typedness of map keys (claim C4) -/

/-- Every key of the value-to-set map is pointer-typed. -/
def KeysPtr (ir : IRView) (st : PTSState) : Prop :=
  ∀ v h, alookup st.map v = some h → ir.isPointerTy v = true

/-- IR typing facts the engine relies on: store pointer operands, bitcast
sources and module globals are pointer-typed, and functions are pointers. -/
structure IRWellTyped (ir : IRView) : Prop where
  storePtr : ∀ f fn, alookup ir.funcs f = some fn →
    ∀ iid svo spo, (iid, Inst.store svo spo) ∈ fn.insts → ir.isPointerTy spo = true
  bitcastSrc : ∀ v rhs, ir.asBitcastCEOp v = some rhs → ir.isPointerTy rhs = true
  globalsPtr : ∀ g ∈ ir.globals, ir.isPointerTy g = true
  funcPtr : ∀ v, ir.isFunc v = true → ir.isPointerTy v = true

theorem interesting_ptr {ir : IRView} {v : Nat}
    (h : isInterestingPointer ir v = true) : ir.isPointerTy v = true := by
  simp only [isInterestingPointer, Bool.and_eq_true] at h
  exact h.1

theorem keysPtr_addSingleton {ir : IRView} {st : PTSState} {v : Nat}
    (hk : KeysPtr ir st) (hv : ir.isPointerTy v = true) :
    KeysPtr ir (addSingletonPointsToSet st v) := by
  intro u h hu
  cases hl : alookup st.map v with
  | some hv' =>
    rw [addSingleton_lookup_present hl] at hu
    exact hk u h hu
  | none =>
    rw [addSingleton_lookup_absent hl] at hu
    by_cases hvu : v = u
    · subst hvu
      exact hv
    · rw [if_neg hvu] at hu
      exact hk u h hu

theorem keysPtr_merge {ir : IRView} {st : PTSState} (hWF : WF st)
    (hk : KeysPtr ir st) (v1 v2 : Nat) :
    KeysPtr ir (mergePointsToSets st v1 v2) := by
  cases h1 : alookup st.map v1 with
  | none => rw [mergePointsToSets_missing (Or.inl h1)]; exact hk
  | some a =>
  cases h2 : alookup st.map v2 with
  | none => rw [mergePointsToSets_missing (Or.inr h2)]; exact hk
  | some b =>
  by_cases hab : a = b
  · rw [mergePointsToSets_noop hWF h1 h2 hab]
    exact hk
  · obtain ⟨hmap, _, _, _, _, _, _⟩ := mergeChar hWF h1 h2 hab rfl rfl
    set hS := if (getSet st a).length ≤ (getSet st b).length then a else b with hhS
    have hSwit : ∃ y, alookup st.map y = some hS := by
      by_cases hlen : (getSet st a).length ≤ (getSet st b).length
      · exact ⟨v1, by rw [hhS, if_pos hlen]; exact h1⟩
      · exact ⟨v2, by rw [hhS, if_neg hlen]; exact h2⟩
    intro u h hu
    rw [hmap u] at hu
    by_cases hus : u ∈ getSet st hS
    · obtain ⟨y, hy⟩ := hSwit
      exact hk u hS (hWF.canon y hS u hy hus)
    · rw [if_neg hus] at hu
      exact hk u h hu

theorem keysPtr_storeSeed {ir : IRView} {s : PTSState} {i : Inst}
    (h : WF s ∧ KeysPtr ir s)
    (hsp : ∀ svo spo, i = Inst.store svo spo → ir.isPointerTy spo = true)
    (hbc : ∀ v rhs, ir.asBitcastCEOp v = some rhs → ir.isPointerTy rhs = true)
    (hfp : ∀ v, ir.isFunc v = true → ir.isPointerTy v = true) :
    WF (storeSeedState ir s i) ∧ KeysPtr ir (storeSeedState ir s i) := by
  refine ⟨WF_storeSeed h.1 i, ?_⟩
  cases i with
  | store svo spo =>
    unfold storeSeedState
    by_cases hp : ir.isPointerTy svo = true
    · simp only [hp, if_true]
      have h1 :
          WF (if ir.isFunc svo = true then
            mergePointsToSets
              (addSingletonPointsToSet (addSingletonPointsToSet s svo) spo) svo spo
          else s) ∧
          KeysPtr ir (if ir.isFunc svo = true then
            mergePointsToSets
              (addSingletonPointsToSet (addSingletonPointsToSet s svo) spo) svo spo
          else s) := by
        by_cases hf : ir.isFunc svo = true
        · rw [if_pos hf]
          have hw := WF_addSingleton (WF_addSingleton h.1 svo) spo
          refine ⟨WF_merge hw svo spo, keysPtr_merge hw ?_ svo spo⟩
          exact keysPtr_addSingleton (keysPtr_addSingleton h.2 hp)
            (hsp svo spo rfl)
        · rw [if_neg hf]
          exact h
      cases hce : ir.asBitcastCEOp svo with
      | none => simpa [hce] using h1.2
      | some rhs =>
        simp only [hce]
        have hw2 := WF_addSingleton (WF_addSingleton (WF_addSingleton h1.1 rhs) svo) spo
        have hk2 : KeysPtr ir (addSingletonPointsToSet (addSingletonPointsToSet
            (addSingletonPointsToSet (if ir.isFunc svo = true then
              mergePointsToSets (addSingletonPointsToSet
                (addSingletonPointsToSet s svo) spo) svo spo
            else s) rhs) svo) spo) :=
          keysPtr_addSingleton (keysPtr_addSingleton
            (keysPtr_addSingleton h1.2 (hbc svo rhs hce)) hp) (hsp svo spo rfl)
        have hw3 := WF_merge hw2 rhs spo
        exact keysPtr_merge hw3 (keysPtr_merge hw2 hk2 rhs spo) svo spo
    · simp only [hp]
      simpa using h.2
  | call callee dataOps => exact h.2
  | other ops => exact h.2

theorem foldl_insVal_all {β : Type} (P : Nat → Prop) (f : List Nat → β → List Nat) :
    ∀ (l : List β),
      (∀ acc b, b ∈ l → (∀ x ∈ acc, P x) → ∀ x ∈ f acc b, P x) →
      ∀ (acc : List Nat), (∀ x ∈ acc, P x) → ∀ x ∈ l.foldl f acc, P x := by
  intro l
  induction l with
  | nil =>
    intro _ acc hacc x hx
    exact hacc x hx
  | cons b rest ih =>
    intro hstep acc hacc
    simp only [List.foldl_cons]
    exact ih (fun a c hc => hstep a c (List.mem_cons_of_mem _ hc)) _
      (hstep acc b (List.mem_cons_self b rest) hacc)

theorem processInst_fst_all {ir : IRView} {acc : List Nat × PTSState}
    {p : Nat × Inst} (h : ∀ x ∈ acc.1, ir.isPointerTy x = true) :
    ∀ x ∈ (processInst ir acc p).1, ir.isPointerTy x = true := by
  obtain ⟨ptrs, st⟩ := acc
  obtain ⟨iid, i⟩ := p
  have hbase : ∀ x ∈ (if ir.isPointerTy iid then insVal ptrs iid else ptrs),
      ir.isPointerTy x = true := by
    intro x hx
    by_cases hii : ir.isPointerTy iid = true
    · rw [if_pos hii] at hx
      rcases mem_insVal.1 hx with hx | rfl
      · exact h x hx
      · exact hii
    · rw [if_neg hii] at hx
      exact h x hx
  have hop : ∀ (l : List Nat) (acc0 : List Nat),
      (∀ x ∈ acc0, ir.isPointerTy x = true) →
      ∀ x ∈ l.foldl
        (fun s op => if isInterestingPointer ir op then insVal s op else s) acc0,
        ir.isPointerTy x = true := by
    intro l
    refine foldl_insVal_all _ _ l ?_
    intro acc0 b _ hacc0 x hx
    by_cases hb : isInterestingPointer ir b = true
    · rw [if_pos hb] at hx
      rcases mem_insVal.1 hx with hx | rfl
      · exact hacc0 x hx
      · exact interesting_ptr hb
    · rw [if_neg hb] at hx
      exact hacc0 x hx
  cases i with
  | store svo spo =>
    simp only [processInst]
    exact hop _ _ hbase
  | call callee dataOps =>
    simp only [processInst]
    refine hop _ _ ?_
    intro x hx
    by_cases hc : (!ir.isFunc callee && isInterestingPointer ir callee) = true
    · rw [if_pos hc] at hx
      rcases mem_insVal.1 hx with hx | rfl
      · exact hbase x hx
      · exact interesting_ptr (Bool.and_eq_true .. ▸ hc).2
    · rw [if_neg hc] at hx
      exact hbase x hx
  | other ops =>
    simp only [processInst]
    exact hop _ _ hbase

theorem instsFold_fst_all (ir : IRView) :
    ∀ (l : List (Nat × Inst)) (s : List Nat × PTSState),
      (∀ x ∈ s.1, ir.isPointerTy x = true) →
      ∀ x ∈ (l.foldl (processInst ir) s).1, ir.isPointerTy x = true := by
  intro l
  induction l with
  | nil =>
    intro s hs x hx
    exact hs x hx
  | cons b rest ih =>
    intro s hs
    simp only [List.foldl_cons]
    exact ih _ (processInst_fst_all hs)

theorem keysPtr_pairwiseStep {ir : IRView} (fv : Nat) {s : List Nat × PTSState}
    (h : WF s.2 ∧ KeysPtr ir s.2) (p : Nat) :
    WF (pairwiseStep ir fv s p).2 ∧ KeysPtr ir (pairwiseStep ir fv s p).2 := by
  unfold pairwiseStep
  refine foldl_pres (fun st => WF st ∧ KeysPtr ir st) _ ?_ s.1 s.2 h
  intro st q hq
  by_cases ho : oracleMerges (ir.oracle fv p q) = true
  · rw [if_pos ho]
    exact ⟨WF_merge hq.1 p q, keysPtr_merge hq.1 hq.2 p q⟩
  · rw [if_neg ho]
    exact hq

theorem keysPtr_instsFold (ir : IRView)
    (hbc : ∀ v rhs, ir.asBitcastCEOp v = some rhs → ir.isPointerTy rhs = true)
    (hfp : ∀ v, ir.isFunc v = true → ir.isPointerTy v = true) :
    ∀ (l : List (Nat × Inst)),
      (∀ iid svo spo, (iid, Inst.store svo spo) ∈ l → ir.isPointerTy spo = true) →
      ∀ (s : List Nat × PTSState), WF s.2 ∧ KeysPtr ir s.2 →
      WF (l.foldl (processInst ir) s).2 ∧
        KeysPtr ir (l.foldl (processInst ir) s).2 := by
  intro l
  induction l with
  | nil => intro _ s hs; exact hs
  | cons b rest ih =>
    intro hst s hs
    simp only [List.foldl_cons]
    refine ih (fun iid svo spo hm => hst iid svo spo (List.mem_cons_of_mem _ hm)) _ ?_
    rw [processInst_snd]
    refine keysPtr_storeSeed hs ?_ hbc hfp
    intro svo spo hi
    refine hst b.1 svo spo ?_
    rw [← hi]
    simp

theorem keysPtr_computeFunctions (ir : IRView) (hwt : IRWellTyped ir)
    {st : PTSState} (h : WF st ∧ KeysPtr ir st) (f : Option Nat) :
    WF (computeFunctionsPointsToSet ir st f) ∧
      KeysPtr ir (computeFunctionsPointsToSet ir st f) := by
  cases f with
  | none => exact h
  | some fv =>
    unfold computeFunctionsPointsToSet
    by_cases ha : memB fv st.analyzed = true
    · simp only [ha, if_true]
      exact h
    · simp only [ha, Bool.false_eq_true, if_false]
      have hfn : ∀ iid svo spo,
          (iid, Inst.store svo spo) ∈
            ((alookup ir.funcs fv).getD
              { args := [], insts := [], isDeclaration := true }).insts →
          ir.isPointerTy spo = true := by
        cases hl : alookup ir.funcs fv with
        | none =>
          intro iid svo spo hmem
          simp [hl] at hmem
        | some fn =>
          intro iid svo spo hmem
          exact hwt.storePtr fv fn hl iid svo spo hmem
      have hargs : ∀ x ∈
          (((alookup ir.funcs fv).getD
            { args := [], insts := [], isDeclaration := true }).args.foldl
              (fun l a => if ir.isPointerTy a then insVal l a else l) []),
          ir.isPointerTy x = true := by
        refine foldl_insVal_all _ _ _ ?_ [] (by simp)
        intro acc b _ hacc x hx
        by_cases hb : ir.isPointerTy b = true
        · rw [if_pos hb] at hx
          rcases mem_insVal.1 hx with hx | rfl
          · exact hacc x hx
          · exact hb
        · rw [if_neg hb] at hx
          exact hacc x hx
      have hptrs : ∀ x ∈
          (ir.globals.foldl
            (fun l g => if ir.isGlobalVar g then insVal l g else l)
            ((((alookup ir.funcs fv).getD
              { args := [], insts := [], isDeclaration := true }).insts.foldl
                (processInst ir)
                ((((alookup ir.funcs fv).getD
                  { args := [], insts := [], isDeclaration := true }).args.foldl
                    (fun l a => if ir.isPointerTy a then insVal l a else l) []),
                  { st with analyzed := insVal st.analyzed fv })).1)),
          ir.isPointerTy x = true := by
        refine foldl_insVal_all _ _ ir.globals ?_ _ ?_
        · intro acc b hb hacc x hx
          by_cases hg : ir.isGlobalVar b = true
          · rw [if_pos hg] at hx
            rcases mem_insVal.1 hx with hx | rfl
            · exact hacc x hx
            · exact hwt.globalsPtr _ hb
          · rw [if_neg hg] at hx
            exact hacc x hx
        · exact instsFold_fst_all ir _ _ hargs
      have hsing :
          ∀ (l : List Nat), (∀ x ∈ l, ir.isPointerTy x = true) →
          ∀ (s : PTSState), WF s ∧ KeysPtr ir s →
          WF (l.foldl addSingletonPointsToSet s) ∧
            KeysPtr ir (l.foldl addSingletonPointsToSet s) := by
        intro l
        induction l with
        | nil => intro _ s hs; exact hs
        | cons b rest ih =>
          intro hl s hs
          simp only [List.foldl_cons]
          refine ih (fun x hx => hl x (List.mem_cons_of_mem _ hx)) _ ?_
          exact ⟨WF_addSingleton hs.1 b,
            keysPtr_addSingleton hs.2 (hl b (List.mem_cons_self b rest))⟩
      refine foldl_pres_snd (fun s => WF s ∧ KeysPtr ir s) _
        (fun s b hs => keysPtr_pairwiseStep fv hs b) _ _ ?_
      refine hsing _ hptrs _ ?_
      exact keysPtr_instsFold ir hwt.bitcastSrc hwt.funcPtr _ hfn _
        ⟨WF_analyzed_update h.1 _, h.2⟩

theorem keysPtr_globalUserStep (ir : IRView) (hwt : IRWellTyped ir) (v : Nat)
    {acc : PTSState} (h : WF acc ∧ KeysPtr ir acc) (u : UserEntry) :
    WF (globalUserStep ir v acc u) ∧ KeysPtr ir (globalUserStep ir v acc u) := by
  unfold globalUserStep
  cases u.parent with
  | none => exact h
  | some pf =>
    simp only []
    have h1 := keysPtr_computeFunctions ir hwt h (some pf)
    by_cases hc : (!ir.isFunc v && isInterestingPointer ir u.id) = true
    · rw [if_pos hc]
      exact ⟨WF_merge h1.1 _ _, keysPtr_merge h1.1 h1.2 _ _⟩
    · rw [if_neg hc]
      cases u.asStore with
      | none => exact h1
      | some svsp =>
        simp only []
        by_cases hs : isInterestingPointer ir svsp.1 = true
        · rw [if_pos hs]
          exact ⟨WF_merge h1.1 _ _, keysPtr_merge h1.1 h1.2 _ _⟩
        · rw [if_neg hs]
          exact h1

theorem keysPtr_computeValues (ir : IRView) (hwt : IRWellTyped ir)
    {st : PTSState} (h : WF st ∧ KeysPtr ir st) (v : Nat) :
    WF (computeValuesPointsToSet ir st v) ∧
      KeysPtr ir (computeValuesPointsToSet ir st v) := by
  unfold computeValuesPointsToSet
  by_cases hint : isInterestingPointer ir v = true
  · simp only [hint, Bool.not_true, Bool.false_eq_true, if_false]
    have h0 : WF (addSingletonPointsToSet st v) ∧
        KeysPtr ir (addSingletonPointsToSet st v) :=
      ⟨WF_addSingleton h.1 v, keysPtr_addSingleton h.2 (interesting_ptr hint)⟩
    by_cases hg : (ir.isGlobalVar v || ir.isFunc v) = true
    · rw [if_pos hg]
      exact foldl_pres (fun s => WF s ∧ KeysPtr ir s) _
        (fun s b hs => keysPtr_globalUserStep ir hwt v hs b) _ _ h0
    · rw [if_neg hg]
      exact keysPtr_computeFunctions ir hwt h0 _
  · simp only [Bool.not_eq_true] at hint
    simp [hint]
    exact h

/-- A function body that stores the function value `4` to the null
pointer `0` (valid IR: `store void()* @foo, void()** null`) and contains
the pointer instruction `5`. -/
def fnNullStore : Func :=
  { args := [], insts := [(3, .store 4 0), (5, .other [])], isDeclaration := false }

/-- A module with the null-target function store: `0` is the null pointer
constant (pointer-typed but not interesting), `4` is the stored function,
`5` is an interesting pointer local to function `2`. -/
def irNullStore : IRView :=
  { isPointerTy := fun v => v == 0 || v == 4 || v == 5,
    isFunc := fun v => v == 4, isGlobalVar := fun _ => false,
    isNullOrUndef := fun v => v == 0, asBitcastCEOp := fun _ => none,
    globals := [], funcs := [(2, fnNullStore)], usersOf := fun _ => [],
    retrieveFunc := fun v => if v == 5 then some 2 else none,
    oracle := fun _ _ _ => .noAlias }

/-- Claim C4 counterexample: after the public `alias` query on the
interesting value `5`, per-function analysis of function `2` has run the
store-of-function seeding, which adds singleton sets for the store's
operands without any `isInterestingPointer` check.  The null pointer
constant `0` -- the store's pointer operand, for which
`isInterestingPointer` is false -- ends up as a key of the map. -/
theorem c4_interesting_only_counterexample :
    isInterestingPointer irNullStore 0 = false ∧
    (alookup (aliasQuery irNullStore emptyState 5 5).1.map 0).isSome = true := by
  decide

/-- Claim C4, amended: after the public operations, every key of the
value-to-set map is pointer-typed (given the IR typing facts); all
enumeration paths except the store special-cases add only interesting
values, but the store-of-function and store-of-bitcast seeding adds the
store's operands without an interestingness check, so a null or undef
pointer operand of such a store can become a key even though
`isInterestingPointer` is false for it. -/
theorem c4_keys_pointer_typed (ir : IRView) (hwt : IRWellTyped ir)
    (st : PTSState) (hWF : WF st) (hk : KeysPtr ir st) (v v1 v2 : Nat) :
    KeysPtr ir (computeValuesPointsToSet ir st v) ∧
    KeysPtr ir (aliasQuery ir st v1 v2).1 ∧
    KeysPtr ir (getPointsToSet ir st v).1 := by
  refine ⟨(keysPtr_computeValues ir hwt ⟨hWF, hk⟩ v).2, ?_, ?_⟩
  · unfold aliasQuery
    by_cases hcond :
        (!isInterestingPointer ir v1 || !isInterestingPointer ir v2) = true
    · simp only [hcond, if_true]
      exact hk
    · simp only [hcond, Bool.false_eq_true, if_false]
      have h2 := keysPtr_computeValues ir hwt
        (keysPtr_computeValues ir hwt ⟨hWF, hk⟩ v1) v2
      cases hl : alookup (computeValuesPointsToSet ir
          (computeValuesPointsToSet ir st v1) v2).map v1 with
      | some h => exact h2.2
      | none => exact h2.2
  · unfold getPointsToSet
    by_cases hint : isInterestingPointer ir v = true
    · simp only [hint, Bool.not_true, Bool.false_eq_true, if_false]
      have h2 := keysPtr_computeValues ir hwt ⟨hWF, hk⟩ v
      cases hl : alookup (computeValuesPointsToSet ir st v).map v with
      | some h => exact h2.2
      | none => exact h2.2
    · simp only [Bool.not_eq_true] at hint
      simp only [hint, Bool.not_false, if_true]
      exact hk

/-- A module in which every value is pointer-typed; its well-typedness
facts hold trivially. -/
def irAllPtr : IRView :=
  { isPointerTy := fun _ => true, isFunc := fun _ => false,
    isGlobalVar := fun _ => false, isNullOrUndef := fun v => v == 0,
    asBitcastCEOp := fun _ => none, globals := [], funcs := [],
    usersOf := fun _ => [], retrieveFunc := fun _ => none,
    oracle := fun _ _ _ => .noAlias }

/-- Witness for the amended C4 at the module `irAllPtr` and the empty
engine. -/
theorem c4_keys_pointer_typed_witness :
    WFb emptyState = true ∧
    (KeysPtr irAllPtr (computeValuesPointsToSet irAllPtr emptyState 9) ∧
      KeysPtr irAllPtr (aliasQuery irAllPtr emptyState 9 9).1 ∧
      KeysPtr irAllPtr (getPointsToSet irAllPtr emptyState 9).1) :=
  ⟨by decide,
    c4_keys_pointer_typed irAllPtr
      ⟨fun _ _ _ _ _ _ _ => rfl, fun _ _ _ => rfl, fun _ _ => rfl, fun _ _ => rfl⟩
      emptyState (WF_of_WFb (by decide))
      (fun _ _ hx => Option.noConfusion hx) 9 9 9⟩

/-! ### Serialization round trip (claim C2) -/

/-- Two lists of values share no element. -/
def Disj (l1 l2 : List Nat) : Prop := ∀ x, x ∈ l1 → x ∉ l2

/-- The lists in the family are pairwise disjoint. -/
def PWdisj : List (List Nat) → Prop
  | [] => True
  | l :: rest => (∀ l2 ∈ rest, Disj l l2) ∧ PWdisj rest

/-- Boolean duplicate-freedom of a list of handles. -/
def nodupB : List Nat → Bool
  | [] => true
  | x :: rest => !memB x rest && nodupB rest

theorem nthGet_idxOf : ∀ (t : List Nat) (v : Nat), v ∈ t →
    nthGet t (idxOf t v) = some v := by
  intro t
  induction t with
  | nil => intro v hv; simp at hv
  | cons x rest ih =>
    intro v hv
    by_cases hx : x = v
    · subst hx
      simp [idxOf, nthGet]
    · rcases List.mem_cons.1 hv with rfl | hv
      · exact absurd rfl hx
      · simp only [idxOf, if_neg hx, nthGet]
        exact ih v hv

theorem valueId_decode {ir : IRView} {v : Nat} (h : v ∈ traverseIRDB ir) :
    nthGet (traverseIRDB ir) (valueId ir v) = some v := by
  unfold valueId
  rw [if_pos (memB_iff.2 h)]
  exact nthGet_idxOf _ v h

theorem mem_nthGet {α : Type} : ∀ {l : List α} {x : α}, x ∈ l →
    ∃ i, nthGet l i = some x := by
  intro l
  induction l with
  | nil => intro x hx; simp at hx
  | cons y rest ih =>
    intro x hx
    rcases List.mem_cons.1 hx with rfl | hx
    · exact ⟨0, rfl⟩
    · obtain ⟨i, hi⟩ := ih hx
      exact ⟨i + 1, hi⟩

theorem nthGet_mem {α : Type} : ∀ {l : List α} {i : Nat} {x : α},
    nthGet l i = some x → x ∈ l := by
  intro l
  induction l with
  | nil => intro i x hx; cases i <;> cases hx
  | cons y rest ih =>
    intro i x hx
    cases i with
    | zero =>
      injection hx with hx
      exact hx ▸ List.mem_cons_self y rest
    | succ j => exact List.mem_cons_of_mem _ (ih hx)

theorem nthGet_map {α β : Type} (f : α → β) :
    ∀ (l : List α) (i : Nat), nthGet (l.map f) i = (nthGet l i).map f := by
  intro l
  induction l with
  | nil => intro i; cases i <;> rfl
  | cons y rest ih =>
    intro i
    cases i with
    | zero => rfl
    | succ j => exact ih j

theorem loadAnalyzed_some (ir : IRView) :
    ∀ (fs : List Nat) (acc : List Nat),
      (∀ f ∈ fs, f ∈ traverseIRDB ir) →
      ∃ an, loadAnalyzed ir (traverseIRDB ir) (fs.map (valueId ir)) acc = some an := by
  intro fs
  induction fs with
  | nil => intro acc _; exact ⟨acc, rfl⟩
  | cons f rest ih =>
    intro acc hfs
    simp only [List.map_cons, loadAnalyzed,
      valueId_decode (hfs f (List.mem_cons_self f rest))]
    exact ih _ (fun g hg => hfs g (List.mem_cons_of_mem _ hg))

theorem loadLine_char (ir : IRView) :
    ∀ (l : List Nat) (h : Nat) (s : PTSState),
      (∀ x ∈ l, x ∈ traverseIRDB ir) →
      ∃ s', loadLine (traverseIRDB ir) h (l.map (valueId ir)) s = some s' ∧
        (∀ u, alookup s'.map u = if u ∈ l then some h else alookup s.map u) ∧
        s'.next = s.next := by
  intro l
  induction l with
  | nil =>
    intro h s _
    exact ⟨s, rfl, fun u => by simp, rfl⟩
  | cons x rest ih =>
    intro h s hmem
    simp only [List.map_cons, loadLine,
      valueId_decode (hmem x (List.mem_cons_self x rest))]
    obtain ⟨s', hload, hmap, hnext⟩ :=
      ih h
        { s with
          sets := setKV s.sets h (insVal (getSet s h) x),
          map := setKV s.map x h }
        (fun y hy => hmem y (List.mem_cons_of_mem _ hy))
    refine ⟨s', hload, ?_, hnext⟩
    intro u
    rw [hmap u]
    by_cases hr : u ∈ rest
    · simp [hr, List.mem_cons]
    · by_cases hx : u = x
      · subst hx
        simp [hr, alookup_setKV]
      · simp [hr, hx, alookup_setKV, List.mem_cons, Ne.symm hx]

theorem loadSets_char (ir : IRView) :
    ∀ (lines : List (List Nat)) (s : PTSState),
      (∀ l ∈ lines, ∀ x ∈ l, x ∈ traverseIRDB ir) →
      PWdisj lines →
      (∀ l ∈ lines, ∀ x ∈ l, alookup s.map x = none) →
      ∃ s', loadSets (traverseIRDB ir) (lines.map (fun l => l.map (valueId ir))) s =
          some s' ∧
        (∀ u hh, alookup s'.map u = some hh ↔
          ((∃ i l', nthGet lines i = some l' ∧ u ∈ l' ∧ hh = s.next + i) ∨
            alookup s.map u = some hh)) ∧
        s'.next = s.next + lines.length := by
  intro lines
  induction lines with
  | nil =>
    intro s _ _ _
    refine ⟨s, rfl, ?_, by simp⟩
    intro u hh
    constructor
    · intro h
      exact Or.inr h
    · rintro (⟨i, l', hg, _⟩ | h)
      · cases i <;> cases hg
      · exact h
  | cons line rest ih =>
    intro s hmem hdisj hunb
    simp only [List.map_cons, loadSets]
    obtain ⟨s2, hload2, hmap2, hnext2⟩ :=
      loadLine_char ir line s.next
        { s with sets := setKV s.sets s.next [], next := s.next + 1 }
        (hmem line (List.mem_cons_self line rest))
    rw [hload2]
    obtain ⟨s', hload', hiff', hnext'⟩ := ih s2
      (fun l hl => hmem l (List.mem_cons_of_mem _ hl))
      hdisj.2
      (fun l hl x hx => by
        rw [hmap2 x]
        have hnx : x ∉ line := fun hmeml => hdisj.1 l hl x hmeml hx
        rw [if_neg hnx]
        exact hunb l (List.mem_cons_of_mem _ hl) x hx)
    have hs2map : ∀ u, alookup s2.map u =
        if u ∈ line then some s.next else alookup s.map u := by
      intro u
      rw [hmap2 u]
    have hs2next : s2.next = s.next + 1 := hnext2
    refine ⟨s', hload', ?_, ?_⟩
    · intro u hh
      rw [hiff' u hh, hs2map u, hs2next]
      constructor
      · rintro (⟨i, l', hg, hu, hhh⟩ | hrig)
        · exact Or.inl ⟨i + 1, l', hg, hu, by omega⟩
        · by_cases hul : u ∈ line
          · rw [if_pos hul] at hrig
            injection hrig with hrig
            exact Or.inl ⟨0, line, rfl, hul, by omega⟩
          · rw [if_neg hul] at hrig
            exact Or.inr hrig
      · rintro (⟨i, l', hg, hu, hhh⟩ | hrig)
        · cases i with
          | zero =>
            injection hg with hg
            subst hg
            right
            rw [if_pos hu]
            have : hh = s.next := by omega
            rw [this]
          | succ j =>
            left
            exact ⟨j, l', hg, hu, by omega⟩
        · right
          have hul : u ∉ line := by
            intro hmemu
            have hn := hunb line (List.mem_cons_self line rest) u hmemu
            rw [hn] at hrig
            cases hrig
          rw [if_neg hul]
          exact hrig
    · rw [hnext', hs2next, List.length_cons]
      omega

theorem nthGet_map_some {α β : Type} (f : α → β) :
    ∀ (l : List α) (i : Nat) (x : α), nthGet l i = some x →
      nthGet (l.map f) i = some (f x) := by
  intro l
  induction l with
  | nil => intro i x hx; cases i <;> cases hx
  | cons y rest ih =>
    intro i x hx
    cases i with
    | zero =>
      injection hx with hx
      rw [hx]
      rfl
    | succ j => exact ih j x hx

theorem nthGet_map_inv {α β : Type} (f : α → β) :
    ∀ (l : List α) (i : Nat) (y : β), nthGet (l.map f) i = some y →
      ∃ x, nthGet l i = some x ∧ y = f x := by
  intro l
  induction l with
  | nil => intro i y hy; cases i <;> cases hy
  | cons z rest ih =>
    intro i y hy
    cases i with
    | zero =>
      injection hy with hy
      exact ⟨z, rfl, hy.symm⟩
    | succ j => exact ih j y hy

theorem mem_printedOrder_of_printed :
    ∀ (entries : List (Nat × Nat)) (printed : List Nat) {p : Nat},
      p ∈ printed → p ∈ printedOrder entries printed := by
  intro entries
  induction entries with
  | nil => intro printed p hp; exact hp
  | cons e rest ih =>
    intro printed p hp
    obtain ⟨v0, h0⟩ := e
    simp only [printedOrder]
    by_cases hm : memB h0 printed = true
    · rw [if_pos hm]
      exact ih printed hp
    · rw [if_neg hm]
      exact ih _ (List.mem_append.2 (Or.inl hp))

theorem handle_mem_printedOrder :
    ∀ (entries : List (Nat × Nat)) (printed : List Nat) {v p : Nat},
      (v, p) ∈ entries → p ∈ printedOrder entries printed := by
  intro entries
  induction entries with
  | nil => intro printed v p hp; simp at hp
  | cons e rest ih =>
    intro printed v p hp
    obtain ⟨v0, h0⟩ := e
    simp only [printedOrder]
    rcases List.mem_cons.1 hp with heq | hp
    · injection heq with h1 h2
      subst h1
      subst h2
      by_cases hm : memB p printed = true
      · rw [if_pos hm]
        exact mem_printedOrder_of_printed rest printed (memB_iff.1 hm)
      · rw [if_neg hm]
        exact mem_printedOrder_of_printed rest _
          (List.mem_append.2 (Or.inr (List.mem_singleton.2 rfl)))
    · exact ih _ hp

theorem mem_printedOrder_src :
    ∀ (entries : List (Nat × Nat)) (printed : List Nat) {p : Nat},
      p ∈ printedOrder entries printed →
      p ∈ printed ∨ ∃ v, (v, p) ∈ entries := by
  intro entries
  induction entries with
  | nil => intro printed p hp; exact Or.inl hp
  | cons e rest ih =>
    intro printed p hp
    obtain ⟨v0, h0⟩ := e
    simp only [printedOrder] at hp
    by_cases hm : memB h0 printed = true
    · rw [if_pos hm] at hp
      rcases ih _ hp with h | ⟨v, hv⟩
      · exact Or.inl h
      · exact Or.inr ⟨v, List.mem_cons_of_mem _ hv⟩
    · rw [if_neg hm] at hp
      rcases ih _ hp with h | ⟨v, hv⟩
      · rcases List.mem_append.1 h with h | h
        · exact Or.inl h
        · refine Or.inr ⟨v0, ?_⟩
          rw [List.mem_singleton.1 h]
          exact List.mem_cons_self _ _
      · exact Or.inr ⟨v, List.mem_cons_of_mem _ hv⟩

theorem nodupB_append_one {l : List Nat} {h : Nat}
    (hnd : nodupB l = true) (hm : memB h l = false) :
    nodupB (l ++ [h]) = true := by
  induction l with
  | nil => simp [nodupB, memB]
  | cons x rest ih =>
    simp only [memB] at hm
    have hm1 : (h == x) = false ∧ memB h rest = false := by
      cases hhx : (h == x) with
      | true => rw [hhx] at hm; simp at hm
      | false =>
        rw [hhx] at hm
        simp only [Bool.false_or] at hm
        exact ⟨rfl, hm⟩
    simp only [nodupB, Bool.and_eq_true, Bool.not_eq_true'] at hnd
    simp only [List.cons_append, nodupB, Bool.and_eq_true, Bool.not_eq_true']
    refine ⟨?_, ih hnd.2 hm1.2⟩
    simp only [List.append_eq]
    rw [memB_append]
    have hx1 : (x == h) = false := by
      simp only [beq_eq_false_iff_ne] at hm1 ⊢
      exact fun hh => hm1.1 hh.symm
    simp [hnd.1, memB, hx1]

theorem nodupB_printedOrder :
    ∀ (entries : List (Nat × Nat)) (printed : List Nat),
      nodupB printed = true → nodupB (printedOrder entries printed) = true := by
  intro entries
  induction entries with
  | nil => intro printed h; exact h
  | cons e rest ih =>
    intro printed h
    obtain ⟨v0, h0⟩ := e
    simp only [printedOrder]
    by_cases hm : memB h0 printed = true
    · rw [if_pos hm]
      exact ih _ h
    · rw [if_neg hm]
      refine ih _ (nodupB_append_one h ?_)
      simpa using hm

theorem printed_member_key {st : PTSState} (hWF : WF st) {p x : Nat}
    (hp : p ∈ printedOrder st.map []) (hx : x ∈ getSet st p) :
    alookup st.map x = some p := by
  rcases mem_printedOrder_src st.map [] hp with h | ⟨v, hv⟩
  · simp at h
  · exact hWF.canon v p x (mem_alookup hWF.nodup hv) hx

theorem printed_sets_disjoint {st : PTSState} (hWF : WF st) :
    ∀ {p q : Nat}, p ∈ printedOrder st.map [] → q ∈ printedOrder st.map [] →
      p ≠ q → Disj (getSet st p) (getSet st q) := by
  intro p q hp hq hpq x hxp hxq
  have h1 := printed_member_key hWF hp hxp
  have h2 := printed_member_key hWF hq hxq
  rw [h1] at h2
  exact hpq (Option.some.inj h2)

theorem pwdisj_map_getSet {st : PTSState} (hWF : WF st) :
    ∀ (P : List Nat), nodupB P = true →
      (∀ p ∈ P, p ∈ printedOrder st.map []) →
      PWdisj (P.map (fun p => getSet st p)) := by
  intro P
  induction P with
  | nil => intro _ _; trivial
  | cons p rest ih =>
    intro hnd hmem
    simp only [nodupB, Bool.and_eq_true, Bool.not_eq_true'] at hnd
    simp only [List.map_cons, PWdisj]
    constructor
    · intro l2 hl2
      obtain ⟨q, hq, rfl⟩ := List.mem_map.1 hl2
      have hpq : p ≠ q := by
        intro hh
        subst hh
        rw [memB_iff.2 hq] at hnd
        cases hnd.1
      exact printed_sets_disjoint hWF (hmem p (List.mem_cons_self p rest))
        (hmem q (List.mem_cons_of_mem _ hq)) hpq
    · exact ih hnd.2 (fun q hq => hmem q (List.mem_cons_of_mem _ hq))

/-- Claim C2, amended: for every engine state satisfying the documented
invariants all of whose map keys and analyzed functions are values visited
by the canonical IR traversal, saving and loading restores the alias
equivalence relation: the saver prints each shared set exactly once
(tracked by handle identity) and the loader allocates one fresh set per
line and rebinds every member to it.  (For states containing values the
traversal misses -- e.g. constant expressions, which the analyzer does
insert -- the saver emits the default id 0 and the relation is not
preserved; see the counterexample.) -/
theorem c2_roundtrip_amended (ir : IRView) (st : PTSState) (hWF : WF st)
    (hKeys : ∀ v h, alookup st.map v = some h → v ∈ traverseIRDB ir)
    (hAn : ∀ f ∈ st.analyzed, f ∈ traverseIRDB ir) :
    ∃ st', loadFile ir (saveFile ir st) = some st' ∧
      ∀ v w, (sameSet st v w ↔ sameSet st' v w) := by
  obtain ⟨an, han⟩ := loadAnalyzed_some ir st.analyzed [] hAn
  have hline_mem : ∀ l ∈ (printedOrder st.map []).map (fun p => getSet st p),
      ∀ x ∈ l, x ∈ traverseIRDB ir := by
    intro l hl x hx
    obtain ⟨p, hp, rfl⟩ := List.mem_map.1 hl
    exact hKeys x p (printed_member_key hWF hp hx)
  have hdisj : PWdisj ((printedOrder st.map []).map (fun p => getSet st p)) :=
    pwdisj_map_getSet hWF _ (nodupB_printedOrder st.map [] rfl) (fun p hp => hp)
  obtain ⟨s', hload, hiff, hnext⟩ :=
    loadSets_char ir ((printedOrder st.map []).map (fun p => getSet st p))
      { map := [], sets := [], next := 0, analyzed := an }
      hline_mem hdisj (fun l _ x _ => rfl)
  refine ⟨s', ?_, ?_⟩
  · unfold loadFile saveFile
    simp only []
    rw [han]
    rw [show (printedOrder st.map []).map (fun h => (getSet st h).map (valueId ir)) =
        ((printedOrder st.map []).map (fun p => getSet st p)).map
          (fun l => l.map (valueId ir)) from by rw [List.map_map]; rfl]
    exact hload
  · intro v w
    constructor
    · rintro ⟨h, hv, hw⟩
      have hhP : h ∈ printedOrder st.map [] :=
        handle_mem_printedOrder st.map [] (alookup_mem hv)
      obtain ⟨i, hi⟩ := mem_nthGet hhP
      have hgl : nthGet ((printedOrder st.map []).map (fun p => getSet st p)) i =
          some (getSet st h) :=
        nthGet_map_some _ _ i h hi
      refine ⟨0 + i, ?_, ?_⟩
      · exact (hiff v (0 + i)).2
          (Or.inl ⟨i, getSet st h, hgl, hWF.memOwn v h hv, rfl⟩)
      · exact (hiff w (0 + i)).2
          (Or.inl ⟨i, getSet st h, hgl, hWF.memOwn w h hw, rfl⟩)
    · rintro ⟨hh, hv', hw'⟩
      rcases (hiff v hh).1 hv' with ⟨i, l', hgi, hvl, hhi⟩ | hcon
      · rcases (hiff w hh).1 hw' with ⟨j, l2', hgj, hwl, hhj⟩ | hcon
        · have hij : i = j := by omega
          subst hij
          rw [hgi] at hgj
          injection hgj with hgj
          subst hgj
          obtain ⟨p, hp, hlp⟩ := nthGet_map_inv _ _ i l' hgi
          subst hlp
          have hpP : p ∈ printedOrder st.map [] := nthGet_mem hp
          exact ⟨p, printed_member_key hWF hpP hvl,
            printed_member_key hWF hpP hwl⟩
        · exact Option.noConfusion hcon
      · exact Option.noConfusion hcon

/-- A module with a single global `10`; the canonical traversal is `[10]`. -/
def irOneGlobal : IRView :=
  { isPointerTy := fun _ => true, isFunc := fun _ => false,
    isGlobalVar := fun _ => true, isNullOrUndef := fun _ => false,
    asBitcastCEOp := fun _ => none, globals := [10], funcs := [],
    usersOf := fun _ => [], retrieveFunc := fun _ => none,
    oracle := fun _ _ _ => .noAlias }

/-- An invariant-satisfying state whose only key `99` (e.g. a bitcast
constant expression, which the store special-case does insert) is not
visited by the canonical IR traversal. -/
def ceState : PTSState :=
  { map := [(99, 0)], sets := [(0, [99])], next := 1, analyzed := [] }

/-- The engine obtained by loading `save(ceState)` against `irOneGlobal`:
the constant-expression key serialized as the default id `0`, which decodes
to the first traversed value `10`. -/
def ceLoadedState : PTSState :=
  { map := [(10, 0)], sets := [(0, [10])], next := 1, analyzed := [] }

/-- Claim C2 counterexample: the round trip does not preserve the alias
equivalence relation for every engine state.  `ValueToIdMap[V]` in `save`
default-constructs the id `0` for a value the canonical traversal never
visits (such as a constant expression), so after saving and loading the
state `ceState`, the value `99` is no longer bound at all -- `99 ~ 99`
holds before the round trip and fails after it. -/
theorem c2_roundtrip_counterexample :
    WFb ceState = true ∧
    sameSet ceState 99 99 ∧
    loadFile irOneGlobal (saveFile irOneGlobal ceState) = some ceLoadedState ∧
    ¬sameSet ceLoadedState 99 99 := by
  refine ⟨by decide, ⟨0, by decide, by decide⟩, by decide, ?_⟩
  rintro ⟨h, h1, _⟩
  have e : alookup ceLoadedState.map 99 = none := by decide
  rw [e] at h1
  cases h1

/-- A module with two globals `10` and `11`. -/
def irTwoGlobals : IRView :=
  { isPointerTy := fun _ => true, isFunc := fun _ => false,
    isGlobalVar := fun _ => true, isNullOrUndef := fun _ => false,
    asBitcastCEOp := fun _ => none, globals := [10, 11], funcs := [],
    usersOf := fun _ => [], retrieveFunc := fun _ => none,
    oracle := fun _ _ _ => .noAlias }

/-- A state in which the two traversed globals share one class. -/
def sharedPairState : PTSState :=
  { map := [(10, 0), (11, 0)], sets := [(0, [10, 11])], next := 1, analyzed := [] }

/-- Witness for the amended C2 at the state with one shared class of two
traversed globals. -/
theorem c2_roundtrip_witness :
    WFb sharedPairState = true ∧
    (∃ st', loadFile irTwoGlobals (saveFile irTwoGlobals sharedPairState) =
        some st' ∧
      ∀ v w, (sameSet sharedPairState v w ↔ sameSet st' v w)) :=
  ⟨by decide,
    c2_roundtrip_amended irTwoGlobals sharedPairState (WF_of_WFb (by decide))
      (by
        intro v h hv
        have hm := alookup_mem hv
        rcases List.mem_cons.1 hm with he | hm
        · injection he with he1 _
          subst he1
          decide
        · rcases List.mem_cons.1 hm with he | hm
          · injection he with he1 _
            subst he1
            decide
          · simp at hm)
      (by intro f hf; simp [sharedPairState] at hf)⟩

end LLVMPointsTo
